import Mathlib

/-!
# Verification of the mesh2motion swing/twist retargeting core

Shallow embedding, over exact rationals, of the retargeting engine of the
`mesh2motion-app` repository:

* `src/src/retarget/human-retargeting/Retargeter.ts` (class `Retargeter`)
* `src/src/retarget/human-retargeting/Rig.ts` (class `Rig`)
* `src/unnamed/part_001` (class `RigItem`)
* `src/unnamed/part_004` (class `AnimationRetargetService`)

The small 3D-math library those files import (`Vec3.ts`, `Quat.ts`,
`Transform.ts`, `Pose.ts`, `Joint.ts`) is not among the sources available
under `src/`; the corresponding definitions below are modelled from the
specification and are marked `Modelled from the spec:` in their doc comments.

Quaternions are represented unnormalized; the rotation action `qrot` divides
by the squared norm, so it is exactly the rotation action of the normalized
quaternion.  JavaScript IEEE-754 doubles are embedded as exact rationals.
-/

namespace Mesh2Motion

/-- Modelled from the spec: a 3-component vector (`Vec3.ts`, not under
`src/`), with exact rational components standing in for doubles. -/
@[ext]
structure Vec3 where
  x : ℚ
  y : ℚ
  z : ℚ
deriving DecidableEq, Repr

/-- Modelled from the spec: a quaternion `x*i + y*j + z*k + w` (`Quat.ts`,
not under `src/`). -/
@[ext]
structure Quat where
  x : ℚ
  y : ℚ
  z : ℚ
  w : ℚ
deriving DecidableEq, Repr

/-- Componentwise vector addition (`Vec3.fromAdd` / `add`). -/
def vadd (a b : Vec3) : Vec3 := ⟨a.x + b.x, a.y + b.y, a.z + b.z⟩

/-- Componentwise vector subtraction (`Vec3.fromSub`). -/
def vsub (a b : Vec3) : Vec3 := ⟨a.x - b.x, a.y - b.y, a.z - b.z⟩

/-- Scaling of a vector by a rational (`Vec3.scale`). -/
def vsmul (c : ℚ) (v : Vec3) : Vec3 := ⟨c * v.x, c * v.y, c * v.z⟩

/-- Euclidean inner product. -/
def vdot (a b : Vec3) : ℚ := a.x * b.x + a.y * b.y + a.z * b.z

/-- Cross product. -/
def cross (a b : Vec3) : Vec3 :=
  ⟨a.y * b.z - a.z * b.y, a.z * b.x - a.x * b.z, a.x * b.y - a.y * b.x⟩

/-- Squared Euclidean length. -/
def vlenSq (v : Vec3) : ℚ := v.x * v.x + v.y * v.y + v.z * v.z

/-- Modelled from the spec: linear interpolation `a + (b - a) * t`
(`Vec3.fromLerp`). -/
def vlerp (a b : Vec3) (t : ℚ) : Vec3 :=
  ⟨a.x + (b.x - a.x) * t, a.y + (b.y - a.y) * t, a.z + (b.z - a.z) * t⟩

/-- The zero vector. -/
def vzero : Vec3 := ⟨0, 0, 0⟩

/-- Hamilton product of two quaternions, `a * b` (`Quat.mul`; `pmul` is the
flipped application of the same product). -/
def qmul (a b : Quat) : Quat :=
  ⟨a.x * b.w + a.w * b.x + a.y * b.z - a.z * b.y,
   a.y * b.w + a.w * b.y + a.z * b.x - a.x * b.z,
   a.z * b.w + a.w * b.z + a.x * b.y - a.y * b.x,
   a.w * b.w - a.x * b.x - a.y * b.y - a.z * b.z⟩

/-- Quaternion conjugate. -/
def qconj (q : Quat) : Quat := ⟨-q.x, -q.y, -q.z, q.w⟩

/-- Squared norm of a quaternion. -/
def qns (q : Quat) : ℚ := q.x * q.x + q.y * q.y + q.z * q.z + q.w * q.w

/-- Modelled from the spec: quaternion inverse (`Quat.fromInvert`),
`conj q / normSq q`; agrees with the conjugate on unit quaternions. -/
def qinv (q : Quat) : Quat :=
  ⟨-q.x / qns q, -q.y / qns q, -q.z / qns q, q.w / qns q⟩

/-- The identity quaternion. -/
def qone : Quat := ⟨0, 0, 0, 1⟩

/-- The vector (imaginary) part of a quaternion. -/
def qvec (q : Quat) : Vec3 := ⟨q.x, q.y, q.z⟩

/-- A vector viewed as a pure quaternion. -/
def pureQ (v : Vec3) : Quat := ⟨v.x, v.y, v.z, 0⟩

/-- Componentwise scaling of a quaternion. -/
def qscale (c : ℚ) (q : Quat) : Quat := ⟨c * q.x, c * q.y, c * q.z, c * q.w⟩

/-- The quaternion conjugation sandwich `q · v · conj q`. -/
def sandwich (q : Quat) (v : Vec3) : Quat := qmul (qmul q (pureQ v)) (qconj q)

/-- Modelled from the spec: rotation of a vector by a quaternion
(`Vec3.fromQuat`).  Conjugation divided by the squared norm, so any nonzero
quaternion acts exactly as its normalization does. -/
def qrot (q : Quat) (v : Vec3) : Vec3 :=
  let p := sandwich q v
  let s := qns q
  ⟨p.x / s, p.y / s, p.z / s⟩

/-- Modelled from the spec: `Quat.fromSwing a b`, the shortest-arc rotation
taking direction `a` onto direction `b` ("rotate a quaternion that takes the
neutral joint's swing direction onto the source's swing direction").
Represented unnormalized as `(cross a b, 1 + dot a b)`; degenerate
antiparallel input (`1 + dot a b = 0`) is excluded by hypotheses wherever a
theorem depends on this rotation. -/
def fromSwing (a b : Vec3) : Quat :=
  let c := cross a b
  ⟨c.x, c.y, c.z, 1 + vdot a b⟩

/-! ## Algebraic facts about the modelled 3D math -/

theorem qmul_assoc (a b c : Quat) : qmul (qmul a b) c = qmul a (qmul b c) := by
  ext <;> simp [qmul] <;> ring

theorem qmul_one (q : Quat) : qmul q qone = q := by
  ext <;> simp [qmul, qone]

theorem qone_mul (q : Quat) : qmul qone q = q := by
  ext <;> simp [qmul, qone]

theorem qconj_mul (a b : Quat) : qconj (qmul a b) = qmul (qconj b) (qconj a) := by
  ext <;> simp [qmul, qconj] <;> ring

theorem qns_mul (p q : Quat) : qns (qmul p q) = qns p * qns q := by
  simp [qmul, qns]; ring

theorem qmul_qinv (q : Quat) (h : qns q ≠ 0) : qmul q (qinv q) = qone := by
  rcases q with ⟨qx, qy, qz, qw⟩
  simp only [qmul, qinv, qone, qns, Quat.mk.injEq] at *
  refine ⟨by field_simp; ring, by field_simp; ring, by field_simp; ring, ?_⟩
  field_simp
  ring

theorem qmul_scale_right (a : Quat) (c : ℚ) (b : Quat) :
    qmul a (qscale c b) = qscale c (qmul a b) := by
  ext <;> simp [qmul, qscale] <;> ring

theorem qmul_scale_left (a : Quat) (c : ℚ) (b : Quat) :
    qmul (qscale c a) b = qscale c (qmul a b) := by
  ext <;> simp [qmul, qscale] <;> ring

theorem sandwich_w (q X : Quat) :
    (qmul (qmul q X) (qconj q)).w = qns q * X.w := by
  simp [qmul, qconj, qns]; ring

theorem sandwich_mul (p q : Quat) (v : Vec3) :
    sandwich (qmul p q) v = qmul (qmul p (sandwich q v)) (qconj p) := by
  simp only [sandwich, qconj_mul, qmul_assoc]

theorem sandwich_eq (q : Quat) (v : Vec3) (h : qns q ≠ 0) :
    sandwich q v = qscale (qns q) (pureQ (qrot q v)) := by
  have hw : (sandwich q v).w = 0 := by
    have := sandwich_w q (pureQ v); simpa [sandwich, pureQ] using this
  ext
  · simp [qrot, qscale, pureQ]; field_simp
  · simp [qrot, qscale, pureQ]; field_simp
  · simp [qrot, qscale, pureQ]; field_simp
  · simp [qscale, pureQ, hw]

/-- The action of a product quaternion is the composition of the actions:
worlds compose as `parent * child`. -/
theorem qrot_mul (p q : Quat) (v : Vec3) (hp : qns p ≠ 0) (hq : qns q ≠ 0) :
    qrot (qmul p q) v = qrot p (qrot q v) := by
  have key : sandwich (qmul p q) v = qscale (qns q) (sandwich p (qrot q v)) := by
    rw [sandwich_mul, sandwich_eq q v hq, qmul_scale_right, qmul_scale_left]
    rfl
  have hns := qns_mul p q
  ext <;>
    simp only [qrot, key, qscale, hns] <;>
    (field_simp; try ring)

theorem qrot_one (v : Vec3) : qrot qone v = v := by
  ext <;> simp [qrot, sandwich, qmul, qconj, pureQ, qone, qns]

set_option maxHeartbeats 1000000 in
/-- Rotation preserves squared length exactly (the action divides by the
squared norm). -/
theorem qrot_lenSq (q : Quat) (v : Vec3) (hq : qns q ≠ 0) :
    vlenSq (qrot q v) = vlenSq v := by
  rcases q with ⟨qx, qy, qz, qw⟩
  rcases v with ⟨vx, vy, vz⟩
  simp only [qrot, sandwich, qmul, qconj, qns, pureQ, vlenSq] at *
  field_simp
  ring

theorem qrot_add (q : Quat) (u v : Vec3) :
    qrot q ⟨u.x + v.x, u.y + v.y, u.z + v.z⟩ =
      ⟨(qrot q u).x + (qrot q v).x, (qrot q u).y + (qrot q v).y,
       (qrot q u).z + (qrot q v).z⟩ := by
  rcases q with ⟨qx, qy, qz, qw⟩
  rcases u with ⟨ux, uy, uz⟩
  rcases v with ⟨vx, vy, vz⟩
  ext <;> simp only [qrot, sandwich, qmul, qconj, qns, pureQ] <;> ring

/-- Rotation preserves inner products (polarization). -/
theorem qrot_dot (q : Quat) (u v : Vec3) (hq : qns q ≠ 0) :
    vdot (qrot q u) (qrot q v) = vdot u v := by
  have pol : ∀ a b : Vec3,
      vdot a b =
        (vlenSq ⟨a.x + b.x, a.y + b.y, a.z + b.z⟩ - vlenSq a - vlenSq b) / 2 := by
    intro a b; simp [vdot, vlenSq]; ring
  rw [pol, ← qrot_add, qrot_lenSq _ _ hq, qrot_lenSq _ _ hq, qrot_lenSq _ _ hq,
    pol]

theorem vdot_self (v : Vec3) : vdot v v = vlenSq v := rfl

theorem vdot_comm (a b : Vec3) : vdot a b = vdot b a := by simp [vdot]; ring

theorem dot_cross_left (a b : Vec3) : vdot (cross a b) a = 0 := by
  simp [vdot, cross]; ring

theorem cross_cross_left (a b c : Vec3) :
    cross (cross a b) c = vsub (vsmul (vdot a c) b) (vsmul (vdot b c) a) := by
  ext <;> simp [cross, vsub, vsmul, vdot] <;> ring

theorem cross_cross_right (x y z : Vec3) :
    cross x (cross y z) = vsub (vsmul (vdot x z) y) (vsmul (vdot x y) z) := by
  ext <;> simp [cross, vsub, vsmul, vdot] <;> ring

theorem lenSq_cross (a b : Vec3) :
    vlenSq (cross a b) = vlenSq a * vlenSq b - (vdot a b) ^ 2 := by
  simp [vlenSq, cross, vdot]; ring

theorem lenSq_smul (c : ℚ) (v : Vec3) : vlenSq (vsmul c v) = c ^ 2 * vlenSq v := by
  simp [vlenSq, vsmul]; ring

theorem qns_split (q : Quat) : qns q = vlenSq (qvec q) + q.w * q.w := by
  simp [qns, qvec, vlenSq]

set_option maxHeartbeats 800000 in
/-- The classical rotation formula, used to analyse `fromSwing`:
`qrot q v = ((w² − |u|²) v + 2 (u·v) u + 2 w (u × v)) / normSq q` for
`u = qvec q`, `w = q.w`. -/
theorem qrot_formula (q : Quat) (v : Vec3) :
    qrot q v =
      vsmul (1 / qns q)
        (vadd
          (vadd (vsmul (q.w * q.w - vlenSq (qvec q)) v)
            (vsmul (2 * vdot (qvec q) v) (qvec q)))
          (vsmul (2 * q.w) (cross (qvec q) v))) := by
  rcases eq_or_ne (qns q) 0 with h | h
  · rcases q with ⟨qx, qy, qz, qw⟩; rcases v with ⟨vx, vy, vz⟩
    ext <;> simp only [qrot, sandwich, qmul, qconj, pureQ, vsmul, vadd, cross,
      qvec, vdot, vlenSq] at * <;> rw [h] <;> simp
  · rcases q with ⟨qx, qy, qz, qw⟩; rcases v with ⟨vx, vy, vz⟩
    ext <;> simp only [qrot, sandwich, qmul, qconj, pureQ, vsmul, vadd, cross,
      qvec, vdot, vlenSq, qns] at * <;> field_simp <;> ring

theorem fromSwing_ns (a b : Vec3) :
    qns (fromSwing a b) = vlenSq a * vlenSq b - (vdot a b) ^ 2 + (1 + vdot a b) ^ 2 := by
  simp [qns, fromSwing, cross, vdot, vlenSq]; ring

theorem fromSwing_ns_unit (a b : Vec3) (ha : vlenSq a = 1) (hb : vlenSq b = 1) :
    qns (fromSwing a b) = 2 * (1 + vdot a b) := by
  rw [fromSwing_ns, ha, hb]; ring

theorem fromSwing_vec (a b : Vec3) : qvec (fromSwing a b) = cross a b := rfl

theorem fromSwing_w (a b : Vec3) : (fromSwing a b).w = 1 + vdot a b := rfl

/-- `fromSwing a b` does take the unit direction `a` onto the unit direction
`b`, as the spec's description of the swing/twist matching requires. -/
theorem fromSwing_apply (a b : Vec3) (ha : vlenSq a = 1) (hb : vlenSq b = 1)
    (hd : 1 + vdot a b ≠ 0) : qrot (fromSwing a b) a = b := by
  have hns := fromSwing_ns_unit a b ha hb
  rw [qrot_formula, hns, fromSwing_vec, fromSwing_w, dot_cross_left,
    lenSq_cross, ha, hb, cross_cross_left, vdot_self, ha, vdot_comm b a]
  ext <;>
    simp only [vsmul, vadd, vsub, cross] <;>
    field_simp [hd] <;>
    ring

/-- A rotation whose axis is parallel to a unit vector `c` fixes `c`. -/
theorem qrot_axis (c : Vec3) (t w : ℚ) (hc : vlenSq c = 1)
    (hNS : t ^ 2 + w ^ 2 ≠ 0) :
    qrot ⟨t * c.x, t * c.y, t * c.z, w⟩ c = c := by
  have hc' : c.x * c.x + c.y * c.y + c.z * c.z = 1 := hc
  have hns : qns ⟨t * c.x, t * c.y, t * c.z, w⟩ = t ^ 2 + w ^ 2 := by
    simp only [qns]; linear_combination t ^ 2 * hc'
  ext
  · simp only [qrot, sandwich, qmul, qconj, pureQ, hns]
    rw [div_eq_iff hNS]; linear_combination t ^ 2 * c.x * hc'
  · simp only [qrot, sandwich, qmul, qconj, pureQ, hns]
    rw [div_eq_iff hNS]; linear_combination t ^ 2 * c.y * hc'
  · simp only [qrot, sandwich, qmul, qconj, pureQ, hns]
    rw [div_eq_iff hNS]; linear_combination t ^ 2 * c.z * hc'

/-- The defining property of the swing-then-twist order: the shortest-arc
rotation between two directions that are both orthogonal to a unit vector `c`
leaves `c` fixed (its axis is parallel to `c`). -/
theorem fromSwing_fixes (a b c : Vec3) (hc : vlenSq c = 1) (hac : vdot a c = 0)
    (hbc : vdot b c = 0) (hq : qns (fromSwing a b) ≠ 0) :
    qrot (fromSwing a b) c = c := by
  have hzc : cross c (⟨0, 0, 0⟩ : Vec3) = ⟨0, 0, 0⟩ := by ext <;> simp [cross]
  have hu : cross (cross a b) c = ⟨0, 0, 0⟩ := by
    rw [cross_cross_left, hac, hbc]; ext <;> simp [vsub, vsmul]
  have h1 := cross_cross_right c (cross a b) c
  rw [hu, hzc, vdot_self, hc] at h1
  have hx := congrArg Vec3.x h1
  have hy := congrArg Vec3.y h1
  have hz := congrArg Vec3.z h1
  simp only [vsub, vsmul, one_mul] at hx hy hz
  have hq2 : fromSwing a b
      = ⟨vdot c (cross a b) * c.x, vdot c (cross a b) * c.y,
         vdot c (cross a b) * c.z, 1 + vdot a b⟩ := by
    ext
    · show (cross a b).x = _; dsimp only; linarith
    · show (cross a b).y = _; dsimp only; linarith
    · show (cross a b).z = _; dsimp only; linarith
    · rfl
  have hc' : c.x * c.x + c.y * c.y + c.z * c.z = 1 := hc
  have hNS : vdot c (cross a b) ^ 2 + (1 + vdot a b) ^ 2 ≠ 0 := by
    intro h0
    apply hq
    rw [hq2]
    simp only [qns]
    linear_combination (vdot c (cross a b)) ^ 2 * hc' + h0
  rw [hq2]
  exact qrot_axis c (vdot c (cross a b)) (1 + vdot a b) hc hNS

/-! ## The swing-then-twist two-step resolution -/

/-- The swing-matching step of `Retargeter.applyChain` (Retargeter.ts lines
249-252) and of `Retargeter.applySwingTwist` (lines 438-441): rotate the
neutral rotation `n` so that the world swing direction `qrot n ts` lands on
the source direction `ss`. -/
def swingStep (n : Quat) (ts ss : Vec3) : Quat :=
  qmul (fromSwing (qrot n ts) ss) n

/-- The twist-matching step applied on top of the swing result `r`
(Retargeter.ts lines 256-259 and 444-447): rotate so that the world twist
direction `qrot r tt` lands on the source twist direction `st`. -/
def twistStep (r : Quat) (tt st : Vec3) : Quat :=
  qmul (fromSwing (qrot r tt) st) r

/-- Core property of the two-step resolution: with orthonormal swing/twist
reference vectors on both sides, the swing step matches the source swing
direction exactly, and the twist step neither disturbs it (its axis is the
already-matched swing direction) nor fails to match the twist direction. -/
theorem swingTwist_core (n : Quat) (ts tt ss st : Vec3)
    (hn : qns n ≠ 0)
    (hts : vlenSq ts = 1) (htt : vlenSq tt = 1) (hto : vdot ts tt = 0)
    (hss : vlenSq ss = 1) (hst : vlenSq st = 1) (hso : vdot ss st = 0)
    (h1 : 1 + vdot (qrot n ts) ss ≠ 0)
    (h2 : 1 + vdot (qrot (swingStep n ts ss) tt) st ≠ 0) :
    qrot (swingStep n ts ss) ts = ss ∧
    qrot (twistStep (swingStep n ts ss) tt st) ts = ss ∧
    qrot (twistStep (swingStep n ts ss) tt st) tt = st := by
  have hld1 : vlenSq (qrot n ts) = 1 := by rw [qrot_lenSq _ _ hn, hts]
  have hfs1 : qns (fromSwing (qrot n ts) ss) ≠ 0 := by
    rw [fromSwing_ns_unit _ _ hld1 hss]
    exact mul_ne_zero two_ne_zero h1
  have hr1 : qns (swingStep n ts ss) ≠ 0 := by
    rw [swingStep, qns_mul]; exact mul_ne_zero hfs1 hn
  have e1 : qrot (swingStep n ts ss) ts = ss := by
    rw [swingStep, qrot_mul _ _ _ hfs1 hn]
    exact fromSwing_apply _ _ hld1 hss h1
  have hld2 : vlenSq (qrot (swingStep n ts ss) tt) = 1 := by
    rw [qrot_lenSq _ _ hr1, htt]
  have hns2 : qns (fromSwing (qrot (swingStep n ts ss) tt) st) ≠ 0 := by
    rw [fromSwing_ns_unit _ _ hld2 hst]
    exact mul_ne_zero two_ne_zero h2
  have hd2ss : vdot (qrot (swingStep n ts ss) tt) ss = 0 := by
    have hpres := qrot_dot (swingStep n ts ss) tt ts hr1
    rw [e1] at hpres
    exact hpres.trans ((vdot_comm tt ts).trans hto)
  refine ⟨e1, ?_, ?_⟩
  · rw [twistStep, qrot_mul _ _ _ hns2 hr1, e1]
    refine fromSwing_fixes _ _ _ hss hd2ss ?_ hns2
    rw [vdot_comm]; exact hso
  · rw [twistStep, qrot_mul _ _ _ hns2 hr1]
    exact fromSwing_apply _ _ hld2 hst h2

/-! ## Transforms, joints, poses

These come from `Transform.ts`, `Joint.ts`, `Pose.ts`, which are not among
the sources under `src/`; they are modelled from the specification (spec
sections 2-4). -/

/-- Modelled from the spec: a position + rotation pair with compose
operations (`Transform.ts`; scale is unused in this prototype, see
`Retargeter.getWorld`: "SCALE - Not Needed for this proto"). -/
@[ext]
structure Transform where
  pos : Vec3
  rot : Quat
deriving DecidableEq, Repr

/-- The identity transform. -/
def Transform.ident : Transform := ⟨vzero, qone⟩

/-- Modelled from the spec: transform composition (`Transform.fromMul`):
"parent transform composed first, then child's local transform applied in
the parent's space". -/
def tmul (p c : Transform) : Transform :=
  ⟨vadd p.pos (qrot p.rot c.pos), qmul p.rot c.rot⟩

/-- Modelled from the spec: convert a world-space position into this
transform's local space (`Transform.toLocalPos`, used by
`applyScaledTranslation` to write "converted into the target pelvis's
parent-local space"). -/
def toLocalPos (t : Transform) (p : Vec3) : Vec3 :=
  qrot (qinv t.rot) (vsub p t.pos)

/-- Modelled from the spec: a joint of the skeleton (`Joint.ts`): stable
index, parent index (−1 for root), name, current local transform (`local` in
the source; a Lean keyword, hence `loc`), and the bind-pose world transform,
cached at construction time only. -/
@[ext]
structure Joint where
  index : Nat
  pindex : Int
  name : String
  loc : Transform
  world : Transform
deriving DecidableEq, Repr

/-- Placeholder joint for out-of-range accesses, which the spec classifies
as unrecoverable contract violations ("fail fast"); they occur in none of
the verified scenarios. -/
def defaultJoint : Joint := ⟨0, -1, "", Transform.ident, Transform.ident⟩

/-- Modelled from the spec: a pose, the ordered array of joints with their
local transforms (`Pose.ts`). -/
@[ext]
structure Pose where
  joints : List Joint
deriving DecidableEq, Repr

/-- Positional joint access `joints[i]`. -/
def Pose.jointAt (p : Pose) (i : Nat) : Joint := p.joints.getD i defaultJoint

/-- Name-based joint lookup (`Pose.getJoint`), `null` when absent. -/
def Pose.getJoint (p : Pose) (n : String) : Option Joint :=
  p.joints.find? (fun j => j.name = n)

/-- Fuel-indexed parent walk for `Pose.getWorld`; the fuel bounds recursion
by the skeleton size (parent chains of well-formed skeletons are shorter). -/
def Pose.getWorldAux (p : Pose) : Nat → Int → Transform
  | 0, _ => Transform.ident
  | fuel + 1, i =>
    if 0 ≤ i ∧ i.toNat < p.joints.length then
      tmul (Pose.getWorldAux p fuel (p.jointAt i.toNat).pindex)
        (p.jointAt i.toNat).loc
    else Transform.ident

/-- Modelled from the spec: resolve a joint's world transform by composing
local transforms from the root down (`Pose.getWorld`); an index of −1 (the
root's parent) resolves to the identity. -/
def Pose.getWorld (p : Pose) (i : Int) : Transform :=
  Pose.getWorldAux p (p.joints.length + 1) i

/-- Modelled from the spec: set the local rotation of joint `i`
(`Pose.setRot`). -/
def Pose.setRot (p : Pose) (i : Nat) (q : Quat) : Pose :=
  match p.joints[i]? with
  | some j => ⟨p.joints.set i { j with loc := { j.loc with rot := q } }⟩
  | none => p

/-- Modelled from the spec: set the local position of joint `i`
(`Pose.setPos`). -/
def Pose.setPos (p : Pose) (i : Nat) (v : Vec3) : Pose :=
  match p.joints[i]? with
  | some j => ⟨p.joints.set i { j with loc := { j.loc with pos := v } }⟩
  | none => p

/-! ## RigItem and Rig (from the sources) -/

/-- `RigItem` (src/unnamed/part_001): rig data about a single joint. -/
@[ext]
structure RigItem where
  idx : Nat
  pidx : Int
  swing : Vec3
  twist : Vec3
deriving DecidableEq, Repr

/-- `RigItem.fromJoint` (src/unnamed/part_001 lines 20-33), in the
both-vectors-given form used by `Rig.buildItem`: the index and parent index
are copied from the joint, and the reference swing/twist axes are rotated by
the inverse of the joint's bind-pose world rotation. -/
def RigItem.fromJoint (j : Joint) (swing twist : Vec3) : RigItem :=
  let q := qinv j.world.rot
  ⟨j.index, j.pindex, qrot q swing, qrot q twist⟩

/-- `Rig` (Rig.ts): bind pose, named chains, and the pelvis-height scalar
(default 1.0).  The three.js `skel` mirrors the t-pose joints (same order,
names, and bind transforms), so the embedding carries only the pose. -/
structure Rig where
  tpose : Pose
  chains : List (String × List RigItem)
  scalar : ℚ
deriving DecidableEq, Repr

/-- JavaScript `this.chains[k]`: `none` when the key is absent
(`undefined`). -/
def Rig.chain (r : Rig) (k : String) : Option (List RigItem) :=
  r.chains.lookup k

/-- `Rig.buildItem` (Rig.ts lines 103-119): build the chain for key `k`,
skipping names not found in the t-pose, and store it under `k`. -/
def Rig.buildItem (r : Rig) (k : String) (names : List String)
    (swing twist : Vec3) : Rig :=
  { r with
    chains :=
      (k, names.filterMap
        (fun n => (r.tpose.getJoint n).map
          (fun j => RigItem.fromJoint j swing twist))) :: r.chains }

/-- `Rig.buildRigScalar` (Rig.ts lines 123-128): the scalar is the bind
world-space height (Y) of the chain's root joint; if the chain is empty the
source throws reading `ch[0].idx`. -/
def Rig.buildRigScalar (r : Rig) (k : String) : Except String Rig :=
  match (r.chain k).bind List.head? with
  | some it =>
      .ok { r with scalar := (r.tpose.jointAt it.idx).world.pos.y }
  | none => .error "TypeError: Rig.buildRigScalar: ch[0] is undefined"

/-- The fixed per-role reference-axis table of the `switch` in
`Rig.fromConfig` (Rig.ts lines 39-88); `none` for keys the switch ignores.
The thumb literal `0.866` denotes the rational `433/500`. -/
def roleRefs (k : String) : Option (Vec3 × Vec3) :=
  if k = "pelvis" then some (⟨0, 0, 1⟩, ⟨0, 1, 0⟩)
  else if k = "spine" then some (⟨0, 1, 0⟩, ⟨0, 0, 1⟩)
  else if k = "head" then some (⟨0, 0, 1⟩, ⟨0, 1, 0⟩)
  else if k = "armL" then some (⟨1, 0, 0⟩, ⟨0, 0, -1⟩)
  else if k = "armR" then some (⟨-1, 0, 0⟩, ⟨0, 0, -1⟩)
  else if k = "legL" ∨ k = "legR" then some (⟨0, 0, 1⟩, ⟨0, -1, 0⟩)
  else if k = "fingersThumbL" then some (⟨1/2, 0, 433/500⟩, ⟨0, -1, 0⟩)
  else if k = "fingersIndexL" ∨ k = "fingersMiddleL" ∨ k = "fingersRingL"
      ∨ k = "fingersPinkyL" then some (⟨1, 0, 0⟩, ⟨0, 0, -1⟩)
  else if k = "fingersThumbR" then some (⟨-1/2, 0, 433/500⟩, ⟨0, -1, 0⟩)
  else if k = "fingersIndexR" ∨ k = "fingersMiddleR" ∨ k = "fingersRingR"
      ∨ k = "fingersPinkyR" then some (⟨-1, 0, 0⟩, ⟨0, 0, -1⟩)
  else none

/-- The loop body of `Rig.fromConfig` (Rig.ts lines 30-91): skip entries
with an empty name list (logged) and keys outside the switch; otherwise
build the chain with the role's reference axes, and for the pelvis
additionally derive the rig scalar. -/
def fromConfigStep (r : Rig) (kv : String × List String) : Except String Rig :=
  if kv.2 = [] then .ok r
  else
    match roleRefs kv.1 with
    | none => .ok r
    | some (sw, tw) =>
        let r2 := r.buildItem kv.1 kv.2 sw tw
        if kv.1 = "pelvis" then r2.buildRigScalar kv.1 else .ok r2

/-- `Rig.fromConfig` is the fold of `fromConfigStep` over the config
entries. -/
def Rig.fromConfig (r : Rig) (cfg : List (String × List String)) :
    Except String Rig :=
  cfg.foldlM fromConfigStep r

/-! ## The Retargeter (src/src/retarget/human-retargeting/Retargeter.ts) -/

/-- The `Retargeter` state.  `srcWorldAt t i` abstracts the three.js
`AnimationMixer` plus source skeleton (external to this core): the world
transform of source bone `i` once the action has been advanced to
accumulated playback time `t` (the `time` field, advanced by
`mixer.update(delta_time)`).  The working `pose` is initialized by the
constructor as a clone of the target rig's t-pose.  The `additives` array is
empty in the repository's only construction path
(`AnimationRetargetService.apply_swing_twist_retargeting`), so the additive
hook contributes nothing here. -/
structure RState where
  srcRig : Rig
  tarRig : Rig
  duration : ℚ
  srcWorldAt : ℚ → Nat → Transform
  time : ℚ
  pose : Pose

/-- `Retargeter.getWorld` on the source skeleton (Retargeter.ts lines
392-408), at the current playback time. -/
def srcWorld (st : RState) (i : Nat) : Transform := st.srcWorldAt st.time i

/-- Replace the working pose. -/
def setPose (st : RState) (p : Pose) : RState := { st with pose := p }

/-- `Retargeter.applySwingTwist` (Retargeter.ts lines 426-451): neutral
transform from the current parent world and the t-pose local, swing match,
twist match on top, then conversion to local space. -/
def applySwingTwist (rig_item : RigItem) (tar_swing_dir tar_twist_dir : Vec3)
    (tpose : Pose) (current_pose : Pose) : Quat :=
  let j := tpose.jointAt rig_item.idx
  let ptran := current_pose.getWorld j.pindex
  let ctran := tmul ptran j.loc
  let source_rot := swingStep ctran.rot rig_item.swing tar_swing_dir
  let target_rot := twistStep source_rot rig_item.twist tar_twist_dir
  qmul (qinv ptran.rot) target_rot

/-- The loop body of `Retargeter.applyChain` (Retargeter.ts lines 226-279)
for one source/target joint pair: source world swing/twist directions,
neutral transform, swing match, twist match, conversion to local space, and
the write into the working pose. -/
def applyChainJoint (st : RState) (s t : RigItem) (p : Pose) : Pose :=
  let srcT := srcWorld st s.idx
  let source_swing := qrot srcT.rot s.swing
  let source_twist := qrot srcT.rot s.twist
  let j := st.tarRig.tpose.jointAt t.idx
  let ptran := p.getWorld j.pindex
  let ctran := tmul ptran j.loc
  let r1 := swingStep ctran.rot t.swing source_swing
  let r2 := twistStep r1 t.twist source_twist
  p.setRot t.idx (qmul (qinv ptran.rot) r2)

/-- The loop of `Retargeter.applyChain`: iterate `i` over the source chain;
reading `tar[i]` throws (`TypeError`) when the target chain is `undefined`
or shorter than the source chain. -/
def applyChainGo (st : RState) :
    List RigItem → Option (List RigItem) → Pose → Except String Pose
  | [], _, p => .ok p
  | _ :: _, none, _ =>
      .error "TypeError: cannot read tar[i] of undefined"
  | _ :: _, some [], _ =>
      .error "TypeError: cannot read idx of undefined (tar[i])"
  | s :: ss, some (t :: ts), p =>
      applyChainGo st ss (some ts) (applyChainJoint st s t p)

/-- `Retargeter.applyChain` (Retargeter.ts lines 194-280).  The
missing-chain guard in the source compares `chains[k]` against `null` with
`===`, but a missing key yields `undefined`, which is not `===` `null`; the
guard never fires, and the subsequent read of `src.length` (resp. `tar[i]`)
on `undefined` throws.  The embedding returns an error in exactly those
cases. -/
def applyChain (st : RState) (k : String) : Except String Pose :=
  match st.srcRig.chain k with
  | none => .error "TypeError: cannot read length of undefined"
  | some src => applyChainGo st src (st.tarRig.chain k) st.pose

/-- The loop body of `Retargeter.applyEndInterp` (Retargeter.ts lines
327-347): interpolation factor `t = i / (tar.length − 1)`, normalized lerp
of the two source direction pairs, swing/twist resolution, write.  `vnorm`
is the (spec-modelled) `Vec3.norm` spherical normalization; `n` is
`tar.length − 1` as a JS number.  (For a singleton chain JS computes
`0/0 = NaN` here and writes NaN rotations; the rational embedding yields
`0/0 = 0`.  Theorems about this function assume chains of length ≥ 2, where
the two semantics agree.) -/
def endInterpJoint (vnorm : Vec3 → Vec3) (tpose : Pose)
    (aSwing aTwist bSwing bTwist : Vec3) (n : ℚ) (p : Pose)
    (it : Nat × RigItem) : Pose :=
  let t : ℚ := (it.1 : ℚ) / n
  let target_dir := vnorm (vlerp aSwing bSwing t)
  let target_twist := vnorm (vlerp aTwist bTwist t)
  p.setRot it.2.idx (applySwingTwist it.2 target_dir target_twist tpose p)

/-- `Retargeter.applyEndInterp` (Retargeter.ts lines 290-348): sample
swing/twist world directions at the source chain's first and last joints
only, then give every target joint the normalized lerp of the two pairs.
The same dead `=== null` guard as in `applyChain` precedes the loop; a
missing chain or an empty source chain throws. -/
def applyEndInterp (vnorm : Vec3 → Vec3) (st : RState) (k : String) :
    Except String Pose :=
  match st.srcRig.chain k with
  | none => .error "TypeError: cannot read 0 of undefined (src chain)"
  | some src =>
    match st.tarRig.chain k with
    | none => .error "TypeError: cannot read length of undefined (tar chain)"
    | some tar =>
      match src.head?, src.getLast? with
      | some s0, some sN =>
        let aTran := srcWorld st s0.idx
        let aSwing := qrot aTran.rot s0.swing
        let aTwist := qrot aTran.rot s0.twist
        let bTran := srcWorld st sN.idx
        let bSwing := qrot bTran.rot sN.swing
        let bTwist := qrot bTran.rot sN.twist
        let n : ℚ := (tar.length : ℚ) - 1
        .ok (tar.enum.foldl
          (endInterpJoint vnorm st.tarRig.tpose aSwing aTwist bSwing bTwist n)
          st.pose)
      | _, _ => .error "TypeError: cannot read idx of undefined (src[0])"

/-- The scaled world-space offset of `Retargeter.applyScaledTranslation`
(Retargeter.ts lines 362-369): (animated source root position − its bind
world position), scaled by `tarRig.scalar / srcRig.scalar`. -/
def scaledOffset (st : RState) (src : RigItem) : Vec3 :=
  let scale_delta := st.tarRig.scalar / st.srcRig.scalar
  let source_t_pose_joint := st.srcRig.tpose.jointAt src.idx
  let source_ws_transform := srcWorld st src.idx
  vsmul scale_delta (vsub source_ws_transform.pos source_t_pose_joint.world.pos)

/-- The write of `Retargeter.applyScaledTranslation` (Retargeter.ts lines
371-380): neutral position plus the scaled offset, converted into the
parent's local space and stored as the chain root's local position. -/
def applyScaledTranslationCore (st : RState) (src tar : RigItem) : Pose :=
  let transform_offset := scaledOffset st src
  let parent_transform := st.pose.getWorld tar.pidx
  let ctran := tmul parent_transform (st.tarRig.tpose.jointAt tar.idx).loc
  let pos := vadd ctran.pos transform_offset
  st.pose.setPos tar.idx (toLocalPos parent_transform pos)

/-- `Retargeter.applyScaledTranslation` (Retargeter.ts lines 353-381).
`chains[k][0]` throws when the chain key is missing, and the dead `=== null`
guard lets an `undefined` root item (empty chain) through to a throwing
`src.idx` / `tar.pidx` read; both cases are errors. -/
def applyScaledTranslation (st : RState) (k : String) : Except String Pose :=
  match st.srcRig.chain k with
  | none => .error "TypeError: cannot read 0 of undefined (src chains)"
  | some srcCh =>
    match st.tarRig.chain k with
    | none => .error "TypeError: cannot read 0 of undefined (tar chains)"
    | some tarCh =>
      match srcCh.head?, tarCh.head? with
      | some src, some tar => .ok (applyScaledTranslationCore st src tar)
      | _, _ => .error "TypeError: cannot read idx of undefined (chain[0])"

/-- The fixed role order of the fourteen `applyChain` calls that follow
`applyChain('pelvis')` and `applyEndInterp('spine')` in `Retargeter.update`
(Retargeter.ts lines 45-62). -/
def tailRoles : List String :=
  ["head", "armL", "armR", "legL", "legR",
   "fingersThumbL", "fingersThumbR", "fingersIndexL", "fingersIndexR",
   "fingersMiddleL", "fingersMiddleR", "fingersRingL", "fingersRingR",
   "fingersPinkyL", "fingersPinkyR"]

/-- Sequentially apply `applyChain` for a list of roles. -/
def applyChainList (st : RState) : List String → Except String RState
  | [] => .ok st
  | k :: ks => do
      let p ← applyChain st k
      applyChainList (setPose st p) ks

/-- `Retargeter.update` (Retargeter.ts lines 37-71): advance the mixer by
`delta_time`, then `applyScaledTranslation('pelvis')`,
`applyChain('pelvis')`, `applyEndInterp('spine')`, and `applyChain` for the
fourteen remaining roles in fixed order.  The additive hook runs over an
empty list in the repository's construction path and is omitted;
`pose.toSkeleton` only copies the working pose onto the rendered three.js
skeleton. -/
def update (vnorm : Vec3 → Vec3) (st : RState) (delta_time : ℚ) :
    Except String RState := do
  let st := { st with time := st.time + delta_time }
  let st := setPose st (← applyScaledTranslation st "pelvis")
  let st := setPose st (← applyChain st "pelvis")
  let st := setPose st (← applyEndInterp vnorm st "spine")
  applyChainList st tailRoles

/-! ## Baking (Retargeter.ts lines 113-185) -/

/-- A baked keyframe track kind: quaternion or position track.  (The JS code
encodes this in the track-name suffix `.quaternion` / `.position`.) -/
inductive TrackProp where
  | rotation
  | position
deriving DecidableEq, Repr

/-- A baked keyframe track: bone name, kind, sample times, flattened
component values (4 per keyframe for rotation, 3 for position). -/
structure Track where
  bone : String
  prop : TrackProp
  times : List ℚ
  values : List ℚ
deriving DecidableEq, Repr

/-- ASCII lowering of a string, embedding JS `toLowerCase` (bone names in
the verified scenarios are ASCII). -/
def lowerAscii (s : String) : String := String.mk (s.toList.map Char.toLower)

/-- Substring containment on character lists, embedding JS
`String.includes`. -/
def hasSub (pat : List Char) (s : List Char) : Bool :=
  s.tails.any (fun t => pat.isPrefixOf t)

/-- The root-motion heuristic of `bake_animation_to_tracks` (Retargeter.ts
line 172): `bone_name.toLowerCase().trim().includes('hips')`. -/
def isHipsName (n : String) : Bool :=
  hasSub "hips".toList ((lowerAscii n).trim.toList)

/-- The four quaternion components in the x, y, z, w push order of
`bake_animation_to_tracks` (lines 150-155). -/
def quatComps (q : Quat) : List ℚ := [q.x, q.y, q.z, q.w]

/-- The three position components in the x, y, z push order (line 147). -/
def posComps (v : Vec3) : List ℚ := [v.x, v.y, v.z]

/-- The sampling loop of `bake_animation_to_tracks` (lines 132-157): per
frame, the clamped timestamp `min(frame * frame_time, duration)`, one
`update(frame_time)`, and a snapshot of the working pose (which
`pose.toSkeleton` has copied onto the target bones, whose local transforms
the loop reads back). -/
def bakeGo (vnorm : Vec3 → Vec3) (frame_time duration : ℚ) :
    Nat → Nat → RState → Except String (List (ℚ × Pose))
  | 0, _, _ => .ok []
  | fuel + 1, frame, st =>
    match update vnorm st frame_time with
    | .error e => .error e
    | .ok st' =>
      match bakeGo vnorm frame_time duration fuel (frame + 1) st' with
      | .error e => .error e
      | .ok rest =>
          .ok ((min ((frame : ℚ) * frame_time) duration, st'.pose) :: rest)

/-- The track-emission loop of `bake_animation_to_tracks` (lines 160-180):
one quaternion track per bone, plus a position track for bones whose name
matches the `hips` heuristic.  (The JS code buckets by bone name in a `Map`,
which would collapse duplicate bone names; the embedding is per bone, and
theorems about it assume distinct bone names.) -/
def bakeTracksOf (bones : List Joint) (samples : List (ℚ × Pose)) :
    List Track :=
  bones.enum.bind (fun ib =>
    let times := samples.map Prod.fst
    let rotT : Track :=
      ⟨ib.2.name, TrackProp.rotation, times,
        samples.bind (fun s => quatComps ((s.2.jointAt ib.1).loc.rot))⟩
    let posT : Track :=
      ⟨ib.2.name, TrackProp.position, times,
        samples.bind (fun s => posComps ((s.2.jointAt ib.1).loc.pos))⟩
    rotT :: (if isHipsName ib.2.name then [posT] else []))

/-- `Retargeter.bake_animation_to_tracks` (Retargeter.ts lines 113-185):
`frame_time = 1/fps`, `frame_count = ceil(duration * fps) + 1`, sample the
animation at each frame, then emit the tracks. -/
def bake_animation_to_tracks (vnorm : Vec3 → Vec3) (st : RState) (fps : ℚ) :
    Except String (List Track) := do
  let duration := st.duration
  let frame_time := 1 / fps
  let frame_count := (⌈duration * fps⌉ + 1).toNat
  let samples ← bakeGo vnorm frame_time duration frame_count 0 st
  pure (bakeTracksOf st.tarRig.tpose.joints samples)


/-! ## Sampling-schedule facts -/

/-- The timestamp schedule of the bake loop: `min(frame * ft, duration)`
for `fuel` consecutive frames starting at `frame`. -/
def schedAux (ft dur : ℚ) : Nat → Nat → List ℚ
  | 0, _ => []
  | fuel + 1, frame => min ((frame : ℚ) * ft) dur :: schedAux ft dur fuel (frame + 1)

theorem schedAux_length (ft dur : ℚ) :
    ∀ fuel frame, (schedAux ft dur fuel frame).length = fuel := by
  intro fuel
  induction fuel with
  | zero => intro frame; rfl
  | succ n ih => intro frame; simp [schedAux, ih]

theorem schedAux_eq_range (ft dur : ℚ) :
    ∀ fuel frame, schedAux ft dur fuel frame
      = (List.range fuel).map (fun f : Nat => min (((frame : ℚ) + (f : ℚ)) * ft) dur) := by
  intro fuel
  induction fuel with
  | zero => intro frame; rfl
  | succ n ih =>
    intro frame
    rw [List.range_succ_eq_map, List.map_cons, List.map_map]
    simp only [schedAux, ih]
    refine congrArg₂ List.cons (by norm_num) ?_
    refine List.map_congr_left fun f _ => ?_
    simp only [Function.comp]
    congr 1
    push_cast
    ring

theorem bakeGo_ok_times (vnorm : Vec3 → Vec3) (ft dur : ℚ) :
    ∀ (fuel frame : Nat) (st : RState) (samples : List (ℚ × Pose)),
      bakeGo vnorm ft dur fuel frame st = .ok samples →
      samples.map Prod.fst = schedAux ft dur fuel frame := by
  intro fuel
  induction fuel with
  | zero =>
    intro frame st samples h
    simp only [bakeGo] at h
    cases h
    rfl
  | succ n ih =>
    intro frame st samples h
    simp only [bakeGo] at h
    split at h
    · cases h
    · split at h
      · cases h
      · cases h
        simp only [List.map_cons, schedAux]
        exact congrArg₂ List.cons rfl (ih _ _ _ (by assumption))


/-- Destructuring a successful bake: the samples exist and the tracks are
the emission over them. -/
theorem bake_ok_shape (vnorm : Vec3 → Vec3) (st : RState) (fps : ℚ)
    (tracks : List Track)
    (hok : bake_animation_to_tracks vnorm st fps = .ok tracks) :
    ∃ samples,
      bakeGo vnorm (1 / fps) st.duration ((⌈st.duration * fps⌉ + 1).toNat) 0 st
        = .ok samples ∧
      tracks = bakeTracksOf st.tarRig.tpose.joints samples := by
  simp only [bake_animation_to_tracks, bind, Except.bind] at hok
  split at hok
  · cases hok
  · cases hok
    exact ⟨_, by assumption, rfl⟩

/-- Every emitted track's time list is the sample timestamp list. -/
theorem bakeTracksOf_times (bones : List Joint) (samples : List (ℚ × Pose)) :
    ∀ tr ∈ bakeTracksOf bones samples, tr.times = samples.map Prod.fst := by
  intro tr htr
  simp only [bakeTracksOf, List.mem_bind] at htr
  obtain ⟨ib, _, htr⟩ := htr
  rcases List.mem_cons.mp htr with h | h
  · subst h; rfl
  · by_cases hh : isHipsName ib.2.name
    · rw [if_pos hh] at h
      rcases List.mem_singleton.mp h with rfl
      rfl
    · rw [if_neg hh] at h
      cases h

/-! ## Test fixtures (used by the concrete witnesses and counterexamples) -/

/-- A two-joint test skeleton: root "Hips" at height 1, child "Spine";
identity bind rotations. -/
def jHips : Joint := ⟨0, -1, "Hips", ⟨⟨0, 1, 0⟩, qone⟩, ⟨⟨0, 1, 0⟩, qone⟩⟩

/-- The second test joint. -/
def jSpine : Joint := ⟨1, 0, "Spine", ⟨⟨0, 1/2, 0⟩, qone⟩, ⟨⟨0, 3/2, 0⟩, qone⟩⟩

/-- The test t-pose. -/
def tposeTest : Pose := ⟨[jHips, jSpine]⟩

/-- Rig item for the root joint (reference pelvis axes; with identity bind
world rotation `fromJoint` stores the references unchanged). -/
def itemHips : RigItem := ⟨0, -1, ⟨0, 0, 1⟩, ⟨0, 1, 0⟩⟩

/-- Rig item for the child joint. -/
def itemSpine : RigItem := ⟨1, 0, ⟨0, 0, 1⟩, ⟨0, 1, 0⟩⟩

/-- All roles `update` touches. -/
def allRolesTest : List String := "pelvis" :: "spine" :: tailRoles

/-- Source test rig: pelvis and spine chains hold the root joint, every
other role chain is present but empty. -/
def srcRigTest : Rig :=
  ⟨tposeTest,
    allRolesTest.map
      (fun k => (k, if k = "pelvis" ∨ k = "spine" then [itemHips] else [])),
    1⟩

/-- Target test rig: only the pelvis chain is populated, so the "Spine"
joint (index 1) is covered by no chain. -/
def tarRigTest : Rig :=
  ⟨tposeTest,
    allRolesTest.map (fun k => (k, if k = "pelvis" then [itemHips] else [])),
    1⟩

/-- A 90-degree rotation about the Z axis (unnormalized). -/
def qz90 : Quat := ⟨0, 0, 1, 1⟩

/-- Test retargeter state: constant source animation (identity rotations),
working pose at the target bind pose, zero-duration clip. -/
def stTest : RState :=
  ⟨srcRigTest, tarRigTest, 0, fun _ _ => ⟨⟨0, 1, 0⟩, qone⟩, 0, tposeTest⟩

/-- State whose rigs have zero configured chains (`chains = {}` in JS). -/
def stNoChains : RState :=
  ⟨⟨tposeTest, [], 1⟩, ⟨tposeTest, [], 1⟩, 0,
    fun _ _ => ⟨⟨0, 1, 0⟩, qone⟩, 0, tposeTest⟩

/-- The identity function used as the `vnorm` parameter in witnesses (on the
witnesses' inputs every normalized vector is already unit). -/
def vnormId : Vec3 → Vec3 := fun v => v

/-! ## C2: chain-missing behaviour -/

/-- C2: the claim states that `applyChain`, `applyEndInterp` and
`applyScaledTranslation` skip a missing/empty chain role with a logged
warning and that a Retargeter with zero configured chains completes
`update`/`bake` leaving the bind pose.  The code instead throws: its guards
compare the chain lookup against `null` with `===`, but JavaScript gives
`undefined` for a missing key, so the guards never fire and the following
reads throw `TypeError`.  This theorem evaluates the embedding at the
failing input: with zero configured chains every one of the three routines
errors, and so do `update` and `bake`. -/
theorem zero_chains_throws :
    (applyScaledTranslation stNoChains "pelvis").isOk = false ∧
    (applyChain stNoChains "pelvis").isOk = false ∧
    (applyEndInterp vnormId stNoChains "spine").isOk = false ∧
    (update vnormId stNoChains (1/1000)).isOk = false ∧
    (bake_animation_to_tracks vnormId stNoChains 30).isOk = false := by
  refine ⟨by with_unfolding_all decide, by with_unfolding_all decide,
    by with_unfolding_all decide, by with_unfolding_all decide,
    by with_unfolding_all decide⟩

/-! ## C4: bake frame schedule -/

/-- C4: `bake` samples `update` at fixed `frame_time = 1/fps` for exactly
`frame_count = ceil(duration * fps) + 1` frames, and each recorded keyframe
timestamp is `min(frame * frame_time, duration)` — so every track's time
list is that schedule, with `frame_count` entries and the last entry clamped
to the duration. -/
theorem bake_frame_schedule (vnorm : Vec3 → Vec3) (st : RState) (fps : ℚ)
    (tracks : List Track)
    (hok : bake_animation_to_tracks vnorm st fps = .ok tracks) :
    ∀ tr ∈ tracks,
      tr.times
        = (List.range ((⌈st.duration * fps⌉ + 1).toNat)).map
            (fun f : Nat => min ((f : ℚ) * (1 / fps)) st.duration) ∧
      tr.times.length = (⌈st.duration * fps⌉ + 1).toNat := by
  obtain ⟨samples, hgo, hemit⟩ := bake_ok_shape vnorm st fps tracks hok
  intro tr htr
  have ht : tr.times = samples.map Prod.fst := by
    subst hemit
    exact bakeTracksOf_times _ _ tr htr
  have hsched := bakeGo_ok_times vnorm (1 / fps) st.duration _ 0 st samples hgo
  have hrange := schedAux_eq_range (1 / fps) st.duration
    ((⌈st.duration * fps⌉ + 1).toNat) 0
  constructor
  · rw [ht, hsched, hrange]
    refine List.map_congr_left fun f _ => ?_
    norm_num
  · rw [ht, hsched, schedAux_length]


/-- The concrete one-second, 30 fps state of the C4 witness. -/
def stTest1 : RState := { stTest with duration := 1 }

/-- The tracks of the concrete C4 bake. -/
def bakeC4 : List Track :=
  ((bake_animation_to_tracks vnormId stTest1 30).toOption).getD []

/-- The first track of the concrete C4 bake. -/
def firstTrackC4 : Track := bakeC4.headD ⟨"", TrackProp.rotation, [], []⟩

theorem bake_frame_schedule_witness :
    firstTrackC4.times
        = (List.range 31).map (fun f : Nat => min ((f : ℚ) * (1 / 30)) 1) ∧
    firstTrackC4.times.length = 31 ∧
    firstTrackC4.times.getLast? = some 1 := by
  have hok : bake_animation_to_tracks vnormId stTest1 30 = .ok bakeC4 := by
    with_unfolding_all rfl
  have hne : bakeC4 ≠ [] := by with_unfolding_all decide
  have hmem : firstTrackC4 ∈ bakeC4 := by
    rcases hbc : bakeC4 with _ | ⟨a, l⟩
    · exact absurd hbc hne
    · simp only [firstTrackC4, hbc, List.headD_cons]
      exact List.mem_cons_self _ _
  obtain ⟨h1, h2⟩ :=
    bake_frame_schedule vnormId stTest1 30 bakeC4 hok firstTrackC4 hmem
  have hc : ((⌈stTest1.duration * 30⌉ + 1).toNat : Nat) = 31 := by
    with_unfolding_all decide
  have hd : stTest1.duration = 1 := rfl
  rw [hc, hd] at h1
  rw [hc] at h2
  refine ⟨h1, h2, ?_⟩
  rw [h1]
  with_unfolding_all decide

/-! ## C9: determinism of baking -/

/-- C9: baking is a pure function of the construction inputs — the source
clip sampling function, rigs, duration, prior playback time, working pose
and `fps`.  Two identically-constructed Retargeters produce identical track
lists; nothing in the bake path reads wall-clock time (the only
`performance.now` use in the source is `start_testing_animation`, which
`bake_animation_to_tracks` never calls — its loop advances the mixer by the
fixed `frame_time`). -/
theorem bake_deterministic (vnorm : Vec3 → Vec3) (s1 s2 : RState) (fps : ℚ)
    (hsrc : s1.srcRig = s2.srcRig) (htar : s1.tarRig = s2.tarRig)
    (hdur : s1.duration = s2.duration) (hw : s1.srcWorldAt = s2.srcWorldAt)
    (ht : s1.time = s2.time) (hp : s1.pose = s2.pose) :
    bake_animation_to_tracks vnorm s1 fps
      = bake_animation_to_tracks vnorm s2 fps := by
  have h : s1 = s2 := by
    cases s1; cases s2; simp_all
  rw [h]

theorem bake_deterministic_witness :
    bake_animation_to_tracks vnormId stTest 1
      = bake_animation_to_tracks vnormId stTest 1 :=
  bake_deterministic vnormId stTest stTest 1 rfl rfl rfl rfl rfl rfl

/-! ## C5: rotation tracks always, position tracks for hips-named joints -/

/-- A rotation track is emitted for every bone. -/
theorem bakeTracksOf_rot_exists (bones : List Joint)
    (samples : List (ℚ × Pose)) (j : Joint) (hj : j ∈ bones) :
    ∃ tr ∈ bakeTracksOf bones samples,
      tr.bone = j.name ∧ tr.prop = TrackProp.rotation := by
  obtain ⟨i, hi⟩ := List.mem_iff_get.mp hj
  have hen : (i.1, j) ∈ bones.enum := by
    rw [List.mk_mem_enum_iff_get?]
    simp only [List.get?_eq_get i.2, Option.some.injEq]
    exact hi
  refine ⟨⟨j.name, TrackProp.rotation, samples.map Prod.fst,
    samples.bind (fun sm => quatComps ((sm.2.jointAt i.1).loc.rot))⟩,
    ?_, rfl, rfl⟩
  simp only [bakeTracksOf, List.mem_bind]
  exact ⟨(i.1, j), hen, List.mem_cons_self _ _⟩

/-- A position track with a given bone name is emitted exactly when some
bone has that name and it matches the hips heuristic. -/
theorem bakeTracksOf_pos_iff (bones : List Joint)
    (samples : List (ℚ × Pose)) (nm : String) :
    (∃ tr ∈ bakeTracksOf bones samples,
        tr.bone = nm ∧ tr.prop = TrackProp.position)
      ↔ ∃ j ∈ bones, j.name = nm ∧ isHipsName nm = true := by
  constructor
  · rintro ⟨tr, htr, hbn, hpr⟩
    simp only [bakeTracksOf, List.mem_bind] at htr
    obtain ⟨ib, hib, htr⟩ := htr
    rcases List.mem_cons.mp htr with h | h
    · subst h; simp at hpr
    · by_cases hh : isHipsName ib.2.name
      · rw [if_pos hh] at h
        rcases List.mem_singleton.mp h with rfl
        have hjmem : ib.2 ∈ bones := by
          have := List.mem_enum_iff_get?.mp hib
          exact List.get?_mem this
        exact ⟨ib.2, hjmem, hbn, hbn ▸ hh⟩
      · rw [if_neg hh] at h
        cases h
  · rintro ⟨j, hj, rfl, hhip⟩
    obtain ⟨i, hi⟩ := List.mem_iff_get.mp hj
    have hen : (i.1, j) ∈ bones.enum := by
      rw [List.mk_mem_enum_iff_get?]
      simp only [List.get?_eq_get i.2, Option.some.injEq]
      exact hi
    refine ⟨⟨j.name, TrackProp.position, samples.map Prod.fst,
      samples.bind (fun sm => posComps ((sm.2.jointAt i.1).loc.pos))⟩,
      ?_, rfl, rfl⟩
    simp only [bakeTracksOf, List.mem_bind]
    refine ⟨(i.1, j), hen, ?_⟩
    rw [List.mem_cons]
    right
    rw [if_pos hhip]
    exact List.mem_singleton.mpr rfl

/-- C5: during baking every target joint's local rotation is recorded into
an emitted rotation track, and a position track is emitted for a joint's
name exactly when that name contains "hips" case-insensitively. -/
theorem bake_tracks_per_joint (vnorm : Vec3 → Vec3) (st : RState) (fps : ℚ)
    (tracks : List Track)
    (hok : bake_animation_to_tracks vnorm st fps = .ok tracks) :
    ∀ j ∈ st.tarRig.tpose.joints,
      (∃ tr ∈ tracks, tr.bone = j.name ∧ tr.prop = TrackProp.rotation) ∧
      ((∃ tr ∈ tracks, tr.bone = j.name ∧ tr.prop = TrackProp.position)
        ↔ isHipsName j.name = true) := by
  obtain ⟨samples, hgo, hemit⟩ := bake_ok_shape vnorm st fps tracks hok
  subst hemit
  intro j hj
  refine ⟨bakeTracksOf_rot_exists _ _ j hj, ?_⟩
  rw [bakeTracksOf_pos_iff]
  constructor
  · rintro ⟨j2, hj2, hn2, hh2⟩
    exact hh2
  · intro hh
    exact ⟨j, hj, rfl, hh⟩

/-- The tracks of the concrete C5 bake (zero-duration clip, 1 fps). -/
def bakeC5 : List Track :=
  ((bake_animation_to_tracks vnormId stTest 1).toOption).getD []

theorem bake_tracks_per_joint_witness :
    isHipsName "Hips" = true ∧ isHipsName "Spine" = false ∧
    (∃ tr ∈ bakeC5, tr.bone = "Hips" ∧ tr.prop = TrackProp.position) ∧
    (∃ tr ∈ bakeC5, tr.bone = "Spine" ∧ tr.prop = TrackProp.rotation) ∧
    ¬(∃ tr ∈ bakeC5, tr.bone = "Spine" ∧ tr.prop = TrackProp.position) := by
  have hok : bake_animation_to_tracks vnormId stTest 1 = .ok bakeC5 := by
    with_unfolding_all rfl
  have h := bake_tracks_per_joint vnormId stTest 1 bakeC5 hok
  have hmemH : jHips ∈ stTest.tarRig.tpose.joints := List.mem_cons_self _ _
  have hmemS : jSpine ∈ stTest.tarRig.tpose.joints :=
    List.mem_cons_of_mem _ (List.mem_cons_self _ _)
  have hHips : isHipsName "Hips" = true := by with_unfolding_all decide
  have hSpine : isHipsName "Spine" = false := by with_unfolding_all decide
  refine ⟨hHips, hSpine, (h jHips hmemH).2.mpr hHips,
    (h jSpine hmemS).1, fun hex => ?_⟩
  have h2 : isHipsName "Spine" = true := (h jSpine hmemS).2.mp hex
  rw [hSpine] at h2
  cases h2

/-! ## C6: scaled translation formula and linearity in the target scalar -/

/-- The same state with the target rig scalar doubled. -/
def doubleTarScalar (st : RState) : RState :=
  { st with tarRig := { st.tarRig with scalar := 2 * st.tarRig.scalar } }

/-- C6: `applyScaledTranslation` writes, as the new target chain-root local
position, the parent-local conversion of (neutral position + the source
root's world offset from bind scaled by `tarRig.scalar / srcRig.scalar`);
and that offset is linear in the target scalar: doubling `tarRig.scalar`
doubles the offset vector and quadruples its squared length (i.e. doubles
its magnitude). -/
theorem scaled_translation_formula_and_linear (st : RState) (k : String)
    (srcCh tarCh : List RigItem) (src tar : RigItem)
    (hs : st.srcRig.chain k = some srcCh) (ht : st.tarRig.chain k = some tarCh)
    (hs0 : srcCh.head? = some src) (ht0 : tarCh.head? = some tar) :
    applyScaledTranslation st k
      = .ok (st.pose.setPos tar.idx
          (toLocalPos (st.pose.getWorld tar.pidx)
            (vadd (tmul (st.pose.getWorld tar.pidx)
                (st.tarRig.tpose.jointAt tar.idx).loc).pos
              (scaledOffset st src)))) ∧
    scaledOffset (doubleTarScalar st) src = vsmul 2 (scaledOffset st src) ∧
    vlenSq (scaledOffset (doubleTarScalar st) src)
      = 4 * vlenSq (scaledOffset st src) := by
  have hdouble : scaledOffset (doubleTarScalar st) src
      = vsmul 2 (scaledOffset st src) := by
    ext <;> simp [scaledOffset, doubleTarScalar, vsmul, vsub, srcWorld] <;> ring
  refine ⟨?_, hdouble, ?_⟩
  · simp only [applyScaledTranslation, hs, ht, hs0, ht0]
    rfl
  · rw [hdouble, lenSq_smul]
    ring

theorem scaled_translation_witness :
    srcRigTest.chain "pelvis" = some [itemHips] ∧
    scaledOffset (doubleTarScalar stTest) itemHips
      = vsmul 2 (scaledOffset stTest itemHips) ∧
    vlenSq (scaledOffset (doubleTarScalar stTest) itemHips)
      = 4 * vlenSq (scaledOffset stTest itemHips) := by
  have hs : stTest.srcRig.chain "pelvis" = some [itemHips] := by
    with_unfolding_all decide
  have ht : stTest.tarRig.chain "pelvis" = some [itemHips] := by
    with_unfolding_all decide
  obtain ⟨h1, h2, h3⟩ := scaled_translation_formula_and_linear stTest "pelvis"
    [itemHips] [itemHips] itemHips itemHips hs ht rfl rfl
  exact ⟨hs, h2, h3⟩


/-! ## C1: swing resolved strictly before twist, and not perturbed by it -/

/-- Joint-slot read-back after `setRot`. -/
theorem jointAt_setRot_rot (p : Pose) (i : Nat) (q : Quat)
    (h : i < p.joints.length) :
    ((p.setRot i q).jointAt i).loc.rot = q := by
  simp only [Pose.setRot, List.getElem?_eq_getElem h, Pose.jointAt,
    List.getD_eq_getElem?_getD]
  rw [List.getElem?_set_eq (by simpa using h)]
  rfl

/-- The "neutral" world rotation of target joint `t.idx`: the current parent
world rotation composed with the joint's own t-pose local rotation
(Retargeter.ts lines 244-246). -/
def tarNeutralRot (st : RState) (t : RigItem) (p : Pose) : Quat :=
  (tmul (p.getWorld (st.tarRig.tpose.jointAt t.idx).pindex)
    (st.tarRig.tpose.jointAt t.idx).loc).rot

/-- The source joint's current world swing direction (Retargeter.ts line
236). -/
def srcSwingDir (st : RState) (s : RigItem) : Vec3 :=
  qrot (srcWorld st s.idx).rot s.swing

/-- The source joint's current world twist direction (Retargeter.ts line
237). -/
def srcTwistDir (st : RState) (s : RigItem) : Vec3 :=
  qrot (srcWorld st s.idx).rot s.twist

/-- C1: in the per-joint resolution of `applyChain` (and identically in
`applySwingTwist`, which `applyEndInterp` uses), the swing match is applied
strictly before the twist match, and — for orthonormal swing/twist reference
vectors on both rig items — the twist correction does not move the
already-matched swing direction: after the full two-step rotation the target
joint's world swing direction equals the source's world swing direction,
which is the direction it already had after the swing step alone (and the
twist direction matches the source twist direction as well).  The world
rotation is the parent world rotation composed with the local rotation the
step wrote into the pose. -/
theorem applyChain_swing_before_twist (st : RState) (s t : RigItem) (p : Pose)
    (hlen : t.idx < p.joints.length)
    (hsq : qns (srcWorld st s.idx).rot ≠ 0)
    (hs1 : vlenSq s.swing = 1) (hs2 : vlenSq s.twist = 1)
    (hs0 : vdot s.swing s.twist = 0)
    (ht1 : vlenSq t.swing = 1) (ht2 : vlenSq t.twist = 1)
    (ht0 : vdot t.swing t.twist = 0)
    (hn : qns (tarNeutralRot st t p) ≠ 0)
    (h1 : 1 + vdot (qrot (tarNeutralRot st t p) t.swing) (srcSwingDir st s) ≠ 0)
    (h2 : 1 + vdot
        (qrot (swingStep (tarNeutralRot st t p) t.swing (srcSwingDir st s))
          t.twist)
        (srcTwistDir st s) ≠ 0) :
    ((applyChainJoint st s t p).jointAt t.idx).loc.rot
        = applySwingTwist t (srcSwingDir st s) (srcTwistDir st s)
            st.tarRig.tpose p ∧
    qrot (qmul (p.getWorld (st.tarRig.tpose.jointAt t.idx).pindex).rot
        (((applyChainJoint st s t p).jointAt t.idx).loc.rot)) t.swing
      = srcSwingDir st s ∧
    qrot (qmul (p.getWorld (st.tarRig.tpose.jointAt t.idx).pindex).rot
        (((applyChainJoint st s t p).jointAt t.idx).loc.rot)) t.swing
      = qrot (swingStep (tarNeutralRot st t p) t.swing (srcSwingDir st s))
          t.swing ∧
    qrot (qmul (p.getWorld (st.tarRig.tpose.jointAt t.idx).pindex).rot
        (((applyChainJoint st s t p).jointAt t.idx).loc.rot)) t.twist
      = srcTwistDir st s := by
  have hpt : qns (p.getWorld (st.tarRig.tpose.jointAt t.idx).pindex).rot ≠ 0 := by
    have hn2 := hn
    rw [show tarNeutralRot st t p
        = qmul (p.getWorld (st.tarRig.tpose.jointAt t.idx).pindex).rot
            (st.tarRig.tpose.jointAt t.idx).loc.rot from rfl, qns_mul] at hn2
    exact left_ne_zero_of_mul hn2
  have hw : ((applyChainJoint st s t p).jointAt t.idx).loc.rot
      = qmul (qinv (p.getWorld (st.tarRig.tpose.jointAt t.idx).pindex).rot)
          (twistStep
            (swingStep (tarNeutralRot st t p) t.swing (srcSwingDir st s))
            t.twist (srcTwistDir st s)) :=
    jointAt_setRot_rot p t.idx _ hlen
  have hcancel : qmul (p.getWorld (st.tarRig.tpose.jointAt t.idx).pindex).rot
      (qmul (qinv (p.getWorld (st.tarRig.tpose.jointAt t.idx).pindex).rot)
        (twistStep
          (swingStep (tarNeutralRot st t p) t.swing (srcSwingDir st s))
          t.twist (srcTwistDir st s)))
      = twistStep
          (swingStep (tarNeutralRot st t p) t.swing (srcSwingDir st s))
          t.twist (srcTwistDir st s) := by
    rw [← qmul_assoc, qmul_qinv _ hpt, qone_mul]
  have hss : vlenSq (srcSwingDir st s) = 1 := by
    rw [srcSwingDir, qrot_lenSq _ _ hsq, hs1]
  have hst : vlenSq (srcTwistDir st s) = 1 := by
    rw [srcTwistDir, qrot_lenSq _ _ hsq, hs2]
  have hso : vdot (srcSwingDir st s) (srcTwistDir st s) = 0 := by
    rw [srcSwingDir, srcTwistDir, qrot_dot _ _ _ hsq]
    exact hs0
  obtain ⟨e1, e2, e3⟩ := swingTwist_core (tarNeutralRot st t p) t.swing t.twist
    (srcSwingDir st s) (srcTwistDir st s) hn ht1 ht2 ht0 hss hst hso h1 h2
  refine ⟨hw, ?_, ?_, ?_⟩
  · rw [hw, hcancel]
    exact e2
  · rw [hw, hcancel, e2, e1]
  · rw [hw, hcancel]
    exact e3

/-- The C1 witness state: the source animation holds a 90-degree world
rotation about Z at the source root. -/
def stC1 : RState := { stTest with srcWorldAt := fun _ _ => ⟨⟨0, 1, 0⟩, qz90⟩ }

theorem applyChain_swing_before_twist_witness :
    (1 + vdot (qrot (tarNeutralRot stC1 itemHips tposeTest) itemHips.swing)
        (srcSwingDir stC1 itemHips) ≠ 0) ∧
    qrot (qmul
        (tposeTest.getWorld (stC1.tarRig.tpose.jointAt itemHips.idx).pindex).rot
        (((applyChainJoint stC1 itemHips itemHips tposeTest).jointAt
          itemHips.idx).loc.rot)) itemHips.swing
      = srcSwingDir stC1 itemHips := by
  refine ⟨by with_unfolding_all decide, ?_⟩
  exact (applyChain_swing_before_twist stC1 itemHips itemHips tposeTest
    (by with_unfolding_all decide) (by with_unfolding_all decide)
    (by with_unfolding_all decide) (by with_unfolding_all decide)
    (by with_unfolding_all decide) (by with_unfolding_all decide)
    (by with_unfolding_all decide) (by with_unfolding_all decide)
    (by with_unfolding_all decide) (by with_unfolding_all decide)
    (by with_unfolding_all decide)).2.1


/-! ## C7: end-interpolation parameterization and exact endpoints -/

theorem vlerp_zero (a b : Vec3) : vlerp a b 0 = a := by
  ext <;> simp [vlerp]

theorem vlerp_one (a b : Vec3) : vlerp a b 1 = b := by
  ext <;> simp [vlerp]

/-- C7: `applyEndInterp` gives the target joint at chain position `i` the
normalized lerp, at `t = i / (tar.length − 1)`, of the source chain's
first-joint and last-joint world swing/twist pairs — and at the endpoints
the interpolation degenerates exactly: position 0 resolves against exactly
the source first joint's directions, and position `tar.length − 1` against
exactly the source last joint's directions (`vnorm` is spherical
normalization, so it leaves these already-unit directions unchanged). -/
theorem end_interp_endpoints (vnorm : Vec3 → Vec3) (st : RState) (k : String)
    (src tar : List RigItem) (s0 sN : RigItem)
    (hs : st.srcRig.chain k = some src) (ht : st.tarRig.chain k = some tar)
    (h0 : src.head? = some s0) (hN : src.getLast? = some sN)
    (hvn : ∀ v, vlenSq v = 1 → vnorm v = v)
    (hlen : 2 ≤ tar.length)
    (hqa : qns (srcWorld st s0.idx).rot ≠ 0)
    (hqb : qns (srcWorld st sN.idx).rot ≠ 0)
    (ha1 : vlenSq s0.swing = 1) (ha2 : vlenSq s0.twist = 1)
    (hb1 : vlenSq sN.swing = 1) (hb2 : vlenSq sN.twist = 1) :
    applyEndInterp vnorm st k
      = .ok (tar.enum.foldl
          (endInterpJoint vnorm st.tarRig.tpose (srcSwingDir st s0)
            (srcTwistDir st s0) (srcSwingDir st sN) (srcTwistDir st sN)
            ((tar.length : ℚ) - 1))
          st.pose) ∧
    (∀ (p : Pose) (itm : RigItem),
      endInterpJoint vnorm st.tarRig.tpose (srcSwingDir st s0)
          (srcTwistDir st s0) (srcSwingDir st sN) (srcTwistDir st sN)
          ((tar.length : ℚ) - 1) p (0, itm)
        = p.setRot itm.idx
            (applySwingTwist itm (srcSwingDir st s0) (srcTwistDir st s0)
              st.tarRig.tpose p)) ∧
    (∀ (p : Pose) (itm : RigItem),
      endInterpJoint vnorm st.tarRig.tpose (srcSwingDir st s0)
          (srcTwistDir st s0) (srcSwingDir st sN) (srcTwistDir st sN)
          ((tar.length : ℚ) - 1) p (tar.length - 1, itm)
        = p.setRot itm.idx
            (applySwingTwist itm (srcSwingDir st sN) (srcTwistDir st sN)
              st.tarRig.tpose p)) := by
  have hsw0 : vlenSq (srcSwingDir st s0) = 1 := by
    rw [srcSwingDir, qrot_lenSq _ _ hqa, ha1]
  have htw0 : vlenSq (srcTwistDir st s0) = 1 := by
    rw [srcTwistDir, qrot_lenSq _ _ hqa, ha2]
  have hswN : vlenSq (srcSwingDir st sN) = 1 := by
    rw [srcSwingDir, qrot_lenSq _ _ hqb, hb1]
  have htwN : vlenSq (srcTwistDir st sN) = 1 := by
    rw [srcTwistDir, qrot_lenSq _ _ hqb, hb2]
  refine ⟨?_, ?_, ?_⟩
  · simp only [applyEndInterp, hs, ht, h0, hN]
    rfl
  · intro p itm
    simp only [endInterpJoint, Nat.cast_zero, zero_div, vlerp_zero,
      hvn _ hsw0, hvn _ htw0]
  · intro p itm
    have h1le : (1 : Nat) ≤ tar.length := le_trans (by norm_num) hlen
    have hc : ((tar.length - 1 : Nat) : ℚ) = (tar.length : ℚ) - 1 := by
      push_cast [h1le]
      ring
    have hne : ((tar.length : ℚ) - 1) ≠ 0 := by
      have h2le : (2 : ℚ) ≤ (tar.length : ℚ) := by exact_mod_cast hlen
      linarith
    simp only [endInterpJoint, hc, div_self hne, vlerp_one,
      hvn _ hswN, hvn _ htwN]

/-- The C7 witness state: the target spine chain has two joints. -/
def tarRig2 : Rig :=
  ⟨tposeTest,
    allRolesTest.map
      (fun k =>
        (k, if k = "pelvis" then [itemHips]
            else if k = "spine" then [itemHips, itemSpine] else [])),
    1⟩

/-- The C7 witness state. -/
def stC7 : RState := { stTest with tarRig := tarRig2 }

theorem end_interp_endpoints_witness :
    2 ≤ ([itemHips, itemSpine] : List RigItem).length ∧
    endInterpJoint vnormId stC7.tarRig.tpose (srcSwingDir stC7 itemHips)
        (srcTwistDir stC7 itemHips) (srcSwingDir stC7 itemHips)
        (srcTwistDir stC7 itemHips)
        ((([itemHips, itemSpine] : List RigItem).length : ℚ) - 1)
        tposeTest (0, itemHips)
      = tposeTest.setRot itemHips.idx
          (applySwingTwist itemHips (srcSwingDir stC7 itemHips)
            (srcTwistDir stC7 itemHips) stC7.tarRig.tpose tposeTest) ∧
    endInterpJoint vnormId stC7.tarRig.tpose (srcSwingDir stC7 itemHips)
        (srcTwistDir stC7 itemHips) (srcSwingDir stC7 itemHips)
        (srcTwistDir stC7 itemHips)
        ((([itemHips, itemSpine] : List RigItem).length : ℚ) - 1)
        tposeTest (([itemHips, itemSpine] : List RigItem).length - 1, itemSpine)
      = tposeTest.setRot itemSpine.idx
          (applySwingTwist itemSpine (srcSwingDir stC7 itemHips)
            (srcTwistDir stC7 itemHips) stC7.tarRig.tpose tposeTest) := by
  have h := end_interp_endpoints vnormId stC7 "spine" [itemHips]
    [itemHips, itemSpine] itemHips itemHips
    (by with_unfolding_all decide) (by with_unfolding_all decide) rfl rfl
    (fun v _ => rfl) (by norm_num)
    (by with_unfolding_all decide) (by with_unfolding_all decide)
    (by with_unfolding_all decide) (by with_unfolding_all decide)
    (by with_unfolding_all decide) (by with_unfolding_all decide)
  exact ⟨by norm_num, h.2.1 tposeTest itemHips, h.2.2 tposeTest itemSpine⟩


/-! ## C8: chain construction stores inverse-bind-rotated reference axes -/

theorem buildRigScalar_fields (r r2 : Rig) (k : String)
    (h : r.buildRigScalar k = .ok r2) :
    r2.tpose = r.tpose ∧ r2.chains = r.chains := by
  simp only [Rig.buildRigScalar] at h
  split at h
  · cases h; exact ⟨rfl, rfl⟩
  · cases h

theorem fromConfigStep_tpose (r r2 : Rig) (kv : String × List String)
    (h : fromConfigStep r kv = .ok r2) : r2.tpose = r.tpose := by
  simp only [fromConfigStep] at h
  split at h
  · cases h; rfl
  · split at h
    · cases h; rfl
    · split at h
      · exact (buildRigScalar_fields _ _ _ h).1
      · cases h; rfl

theorem chain_buildItem_ne (r : Rig) (k k2 : String) (names : List String)
    (sw tw : Vec3) (hne : k ≠ k2) :
    (r.buildItem k2 names sw tw).chain k = r.chain k := by
  simp only [Rig.buildItem, Rig.chain, List.lookup]
  rw [show (k == k2) = false from beq_eq_false_iff_ne.mpr hne]

theorem chain_buildItem_self (r : Rig) (k : String) (names : List String)
    (sw tw : Vec3) :
    (r.buildItem k names sw tw).chain k
      = some (names.filterMap
          (fun n => (r.tpose.getJoint n).map
            (fun j => RigItem.fromJoint j sw tw))) := by
  simp only [Rig.buildItem, Rig.chain, List.lookup]
  rw [beq_self_eq_true]

theorem fromConfigStep_chain_ne (r r2 : Rig) (kv : String × List String)
    (k : String) (hk : k ≠ kv.1) (h : fromConfigStep r kv = .ok r2) :
    r2.chain k = r.chain k := by
  simp only [fromConfigStep] at h
  split at h
  · cases h; rfl
  · split at h
    · cases h; rfl
    · split at h
      · obtain ⟨-, hc⟩ := buildRigScalar_fields _ _ _ h
        rw [Rig.chain, hc, ← Rig.chain]
        exact chain_buildItem_ne _ _ _ _ _ _ hk
      · cases h
        exact chain_buildItem_ne _ _ _ _ _ _ hk

theorem fromConfigStep_chain_self (r r2 : Rig) (kv : String × List String)
    (sw tw : Vec3) (hne : kv.2 ≠ []) (href : roleRefs kv.1 = some (sw, tw))
    (h : fromConfigStep r kv = .ok r2) :
    r2.chain kv.1
      = some (kv.2.filterMap
          (fun n => (r.tpose.getJoint n).map
            (fun j => RigItem.fromJoint j sw tw))) := by
  simp only [fromConfigStep, if_neg hne, href] at h
  split at h
  · obtain ⟨-, hc⟩ := buildRigScalar_fields _ _ _ h
    rw [Rig.chain, hc, ← Rig.chain]
    exact chain_buildItem_self _ _ _ _ _
  · cases h
    exact chain_buildItem_self _ _ _ _ _

theorem fromConfig_chain_preserved :
    ∀ (cfg : List (String × List String)) (r0 r : Rig) (k : String),
      k ∉ cfg.map Prod.fst → Rig.fromConfig r0 cfg = .ok r →
      r.chain k = r0.chain k := by
  intro cfg
  induction cfg with
  | nil =>
    intro r0 r k _ h
    cases h
    rfl
  | cons kv cfg ih =>
    intro r0 r k hk h
    simp only [Rig.fromConfig, List.foldlM_cons, bind, Except.bind] at h
    cases hstep : fromConfigStep r0 kv with
    | error e => rw [hstep] at h; cases h
    | ok r1 =>
      rw [hstep] at h
      rw [List.map_cons] at hk
      have hk1 : k ≠ kv.1 := fun he => hk (he ▸ List.mem_cons_self _ _)
      have hk2 : k ∉ cfg.map Prod.fst := fun hm => hk (List.mem_cons_of_mem _ hm)
      rw [ih r1 r k hk2 h, fromConfigStep_chain_ne r0 r1 kv k hk1 hstep]

theorem fromConfig_tpose :
    ∀ (cfg : List (String × List String)) (r0 r : Rig),
      Rig.fromConfig r0 cfg = .ok r → r.tpose = r0.tpose := by
  intro cfg
  induction cfg with
  | nil => intro r0 r h; cases h; rfl
  | cons kv cfg ih =>
    intro r0 r h
    simp only [Rig.fromConfig, List.foldlM_cons, bind, Except.bind] at h
    cases hstep : fromConfigStep r0 kv with
    | error e => rw [hstep] at h; cases h
    | ok r1 =>
      rw [hstep] at h
      rw [ih r1 r h, fromConfigStep_tpose r0 r1 kv hstep]

theorem fromConfig_chain_eq :
    ∀ (cfg : List (String × List String)) (r0 r : Rig) (k : String)
      (names : List String) (sw tw : Vec3),
      (cfg.map Prod.fst).Nodup → Rig.fromConfig r0 cfg = .ok r →
      (k, names) ∈ cfg → names ≠ [] → roleRefs k = some (sw, tw) →
      r.chain k
        = some (names.filterMap
            (fun n => (r0.tpose.getJoint n).map
              (fun j => RigItem.fromJoint j sw tw))) := by
  intro cfg
  induction cfg with
  | nil => intro r0 r k names sw tw _ _ hmem; cases hmem
  | cons kv cfg ih =>
    intro r0 r k names sw tw hnd h hmem hne href
    simp only [Rig.fromConfig, List.foldlM_cons, bind, Except.bind] at h
    cases hstep : fromConfigStep r0 kv with
    | error e => rw [hstep] at h; cases h
    | ok r1 =>
      rw [hstep] at h
      rcases List.mem_cons.mp hmem with heq | htail
      · have hkv : kv = (k, names) := heq.symm
        subst hkv
        have hnotin : k ∉ cfg.map Prod.fst := by
          simpa using (List.nodup_cons.mp hnd).1
        rw [fromConfig_chain_preserved cfg r1 r k hnotin h]
        exact fromConfigStep_chain_self r0 r1 (k, names) sw tw hne href hstep
      · have hnd2 : (cfg.map Prod.fst).Nodup := (List.nodup_cons.mp hnd).2
        have := ih r1 r k names sw tw hnd2 h htail hne href
        rw [this, fromConfigStep_tpose r0 r1 kv hstep]

/-- C8: for every joint retained in a chain built by `fromConfig` for role
`k`, the stored RigItem swing/twist are the role's fixed reference axes
rotated by the inverse of the joint's bind-pose world rotation; and the
per-role reference table is exactly the claimed one (pelvis/head `+Z,+Y`;
spine `+Y,+Z`; armL `+X,−Z`; armR `−X,−Z`; both legs `+Z,−Y`; left fingers
`+X,−Z` with thumb swing `(0.5, 0, 0.866)`; right fingers `−X,−Z` with
thumb swing `(−0.5, 0, 0.866)`; thumb twists `−Y`). -/
theorem fromConfig_stored_axes (r0 : Rig) (cfg : List (String × List String))
    (r : Rig) (k : String) (names : List String) (sw tw : Vec3)
    (hnodup : (cfg.map Prod.fst).Nodup)
    (hok : Rig.fromConfig r0 cfg = .ok r)
    (hmem : (k, names) ∈ cfg) (hne : names ≠ [])
    (href : roleRefs k = some (sw, tw)) :
    r.chain k
      = some (names.filterMap
          (fun n => (r0.tpose.getJoint n).map
            (fun j => RigItem.fromJoint j sw tw))) ∧
    (∀ (j : Joint) (a b : Vec3),
      (RigItem.fromJoint j a b).swing = qrot (qinv j.world.rot) a ∧
      (RigItem.fromJoint j a b).twist = qrot (qinv j.world.rot) b ∧
      (RigItem.fromJoint j a b).idx = j.index ∧
      (RigItem.fromJoint j a b).pidx = j.pindex) ∧
    roleRefs "pelvis" = some (⟨0, 0, 1⟩, ⟨0, 1, 0⟩) ∧
    roleRefs "spine" = some (⟨0, 1, 0⟩, ⟨0, 0, 1⟩) ∧
    roleRefs "head" = some (⟨0, 0, 1⟩, ⟨0, 1, 0⟩) ∧
    roleRefs "armL" = some (⟨1, 0, 0⟩, ⟨0, 0, -1⟩) ∧
    roleRefs "armR" = some (⟨-1, 0, 0⟩, ⟨0, 0, -1⟩) ∧
    roleRefs "legL" = some (⟨0, 0, 1⟩, ⟨0, -1, 0⟩) ∧
    roleRefs "legR" = some (⟨0, 0, 1⟩, ⟨0, -1, 0⟩) ∧
    roleRefs "fingersThumbL" = some (⟨1/2, 0, 433/500⟩, ⟨0, -1, 0⟩) ∧
    roleRefs "fingersThumbR" = some (⟨-1/2, 0, 433/500⟩, ⟨0, -1, 0⟩) ∧
    roleRefs "fingersIndexL" = some (⟨1, 0, 0⟩, ⟨0, 0, -1⟩) ∧
    roleRefs "fingersMiddleL" = some (⟨1, 0, 0⟩, ⟨0, 0, -1⟩) ∧
    roleRefs "fingersRingL" = some (⟨1, 0, 0⟩, ⟨0, 0, -1⟩) ∧
    roleRefs "fingersPinkyL" = some (⟨1, 0, 0⟩, ⟨0, 0, -1⟩) ∧
    roleRefs "fingersIndexR" = some (⟨-1, 0, 0⟩, ⟨0, 0, -1⟩) ∧
    roleRefs "fingersMiddleR" = some (⟨-1, 0, 0⟩, ⟨0, 0, -1⟩) ∧
    roleRefs "fingersRingR" = some (⟨-1, 0, 0⟩, ⟨0, 0, -1⟩) ∧
    roleRefs "fingersPinkyR" = some (⟨-1, 0, 0⟩, ⟨0, 0, -1⟩) := by
  refine ⟨fromConfig_chain_eq cfg r0 r k names sw tw hnodup hok hmem hne href,
    fun j a b => ⟨rfl, rfl, rfl, rfl⟩, ?_, ?_, ?_, ?_, ?_, ?_, ?_, ?_, ?_,
    ?_, ?_, ?_, ?_, ?_, ?_, ?_, ?_⟩ <;> with_unfolding_all rfl

/-- The C8 witness config and its result. -/
def cfgC8 : List (String × List String) :=
  [("pelvis", ["Hips"]), ("armL", ["Spine", "NoSuchBone"])]

/-- The rig built by the C8 witness config over the test t-pose. -/
def rigC8 : Rig :=
  ((Rig.fromConfig ⟨tposeTest, [], 1⟩ cfgC8).toOption).getD ⟨⟨[]⟩, [], 1⟩

theorem fromConfig_stored_axes_witness :
    (cfgC8.map Prod.fst).Nodup ∧
    rigC8.chain "armL"
      = some [RigItem.fromJoint jSpine ⟨1, 0, 0⟩ ⟨0, 0, -1⟩] ∧
    (RigItem.fromJoint jSpine ⟨1, 0, 0⟩ ⟨0, 0, -1⟩).swing
      = qrot (qinv jSpine.world.rot) ⟨1, 0, 0⟩ := by
  have hok : Rig.fromConfig ⟨tposeTest, [], 1⟩ cfgC8 = .ok rigC8 := by
    with_unfolding_all rfl
  have h := fromConfig_stored_axes ⟨tposeTest, [], 1⟩ cfgC8 rigC8 "armL"
    ["Spine", "NoSuchBone"] ⟨1, 0, 0⟩ ⟨0, 0, -1⟩
    (by with_unfolding_all decide) hok
    (by simp [cfgC8]) (by simp) (by with_unfolding_all rfl)
  refine ⟨by with_unfolding_all decide, ?_, (h.2.1 jSpine _ _).1⟩
  rw [h.1]
  with_unfolding_all decide


/-! ## C10: frame conditions of the update tick -/

/-- `jointAt` is unchanged by `setRot` at another index. -/
theorem jointAt_setRot_ne (p : Pose) (i : Nat) (q : Quat) (j : Nat)
    (h : j ≠ i) : (p.setRot i q).jointAt j = p.jointAt j := by
  simp only [Pose.setRot]
  cases hx : p.joints[i]? with
  | none => rfl
  | some jt =>
    simp only [Pose.jointAt, List.getD_eq_getElem?_getD]
    rw [List.getElem?_set_ne (Ne.symm h)]

/-- The full joint value written by `setRot` in range. -/
theorem jointAt_setRot_self (p : Pose) (i : Nat) (q : Quat)
    (h : i < p.joints.length) :
    (p.setRot i q).jointAt i
      = { p.jointAt i with loc := { (p.jointAt i).loc with rot := q } } := by
  simp only [Pose.setRot, List.getElem?_eq_getElem h, Pose.jointAt,
    List.getD_eq_getElem?_getD]
  rw [List.getElem?_set_eq (by simpa using h)]
  simp [List.getElem?_eq_getElem h]

/-- `setRot` never changes any local position. -/
theorem jointAt_setRot_pos (p : Pose) (i : Nat) (q : Quat) (j : Nat) :
    ((p.setRot i q).jointAt j).loc.pos = (p.jointAt j).loc.pos := by
  rcases eq_or_ne j i with rfl | h
  · rcases Nat.lt_or_ge j p.joints.length with hlt | hge
    · rw [jointAt_setRot_self p j q hlt]
    · have : p.joints[j]? = none := by
        rw [List.getElem?_eq_none_iff]
        exact hge
      simp only [Pose.setRot, this]
  · rw [jointAt_setRot_ne p i q j h]

/-- `jointAt` is unchanged by `setPos` at another index. -/
theorem jointAt_setPos_ne (p : Pose) (i : Nat) (v : Vec3) (j : Nat)
    (h : j ≠ i) : (p.setPos i v).jointAt j = p.jointAt j := by
  simp only [Pose.setPos]
  cases hx : p.joints[i]? with
  | none => rfl
  | some jt =>
    simp only [Pose.jointAt, List.getD_eq_getElem?_getD]
    rw [List.getElem?_set_ne (Ne.symm h)]

/-- The full joint value written by `setPos` in range. -/
theorem jointAt_setPos_self (p : Pose) (i : Nat) (v : Vec3)
    (h : i < p.joints.length) :
    (p.setPos i v).jointAt i
      = { p.jointAt i with loc := { (p.jointAt i).loc with pos := v } } := by
  simp only [Pose.setPos, List.getElem?_eq_getElem h, Pose.jointAt,
    List.getD_eq_getElem?_getD]
  rw [List.getElem?_set_eq (by simpa using h)]
  simp [List.getElem?_eq_getElem h]

/-- `setPos` never changes any local rotation. -/
theorem jointAt_setPos_rot (p : Pose) (i : Nat) (v : Vec3) (j : Nat) :
    ((p.setPos i v).jointAt j).loc.rot = (p.jointAt j).loc.rot := by
  rcases eq_or_ne j i with rfl | h
  · rcases Nat.lt_or_ge j p.joints.length with hlt | hge
    · rw [jointAt_setPos_self p j v hlt]
    · have : p.joints[j]? = none := by
        rw [List.getElem?_eq_none_iff]
        exact hge
      simp only [Pose.setPos, this]
  · rw [jointAt_setPos_ne p i v j h]

/-- Frame condition for a pose step: joints outside `ws` are untouched and
no local position changes at all. -/
def RotFrame (ws : List Nat) (p p2 : Pose) : Prop :=
  (∀ j, j ∉ ws → p2.jointAt j = p.jointAt j) ∧
  (∀ j, (p2.jointAt j).loc.pos = (p.jointAt j).loc.pos)

theorem RotFrame.rfl (ws : List Nat) (p : Pose) : RotFrame ws p p :=
  ⟨fun _ _ => Eq.refl _, fun _ => Eq.refl _⟩

theorem RotFrame.trans (ws ws2 : List Nat) (p p1 p2 : Pose)
    (h1 : RotFrame ws p p1) (h2 : RotFrame ws2 p1 p2) :
    RotFrame (ws ++ ws2) p p2 := by
  refine ⟨fun j hj => ?_, fun j => (h2.2 j).trans (h1.2 j)⟩
  rw [List.mem_append] at hj
  push_neg at hj
  rw [h2.1 j hj.2, h1.1 j hj.1]

theorem RotFrame.mono (ws ws2 : List Nat) (p p2 : Pose)
    (hsub : ∀ j, j ∈ ws → j ∈ ws2) (h : RotFrame ws p p2) :
    RotFrame ws2 p p2 :=
  ⟨fun j hj => h.1 j (fun hin => hj (hsub j hin)), h.2⟩

theorem setRot_rotFrame (p : Pose) (i : Nat) (q : Quat) :
    RotFrame [i] p (p.setRot i q) := by
  refine ⟨fun j hj => ?_, fun j => jointAt_setRot_pos p i q j⟩
  exact jointAt_setRot_ne p i q j (by simpa using hj)

theorem applyChainGo_rotFrame (st : RState) :
    ∀ (src : List RigItem) (otar : Option (List RigItem)) (p p2 : Pose),
      applyChainGo st src otar p = .ok p2 →
      RotFrame ((otar.getD []).map RigItem.idx) p p2 := by
  intro src
  induction src with
  | nil =>
    intro otar p p2 h
    cases h
    exact RotFrame.rfl _ _
  | cons s ss ih =>
    intro otar p p2 h
    match otar with
    | none => cases h
    | some [] => cases h
    | some (t :: ts) =>
      have h2 := ih (some ts) (applyChainJoint st s t p) p2 h
      have h1 : RotFrame [t.idx] p (applyChainJoint st s t p) :=
        setRot_rotFrame p t.idx _
      have := RotFrame.trans _ _ _ _ _ h1 h2
      exact RotFrame.mono _ _ _ _ (by intro j hj; simpa using hj) this

theorem foldl_endInterp_rotFrame (vnorm : Vec3 → Vec3) (tp : Pose)
    (aS aT bS bT : Vec3) (n : ℚ) :
    ∀ (l : List (Nat × RigItem)) (p : Pose),
      RotFrame (l.map (fun it => it.2.idx)) p
        (l.foldl (endInterpJoint vnorm tp aS aT bS bT n) p) := by
  intro l
  induction l with
  | nil => intro p; exact RotFrame.rfl _ _
  | cons it l ih =>
    intro p
    have h1 : RotFrame [it.2.idx] p (endInterpJoint vnorm tp aS aT bS bT n p it) :=
      setRot_rotFrame p it.2.idx _
    have h2 := ih (endInterpJoint vnorm tp aS aT bS bT n p it)
    have := RotFrame.trans _ _ _ _ _ h1 h2
    exact RotFrame.mono _ _ _ _ (by intro j hj; simpa using hj) this

/-- The indices of the target chain stored for role `k`. -/
def chainIdxs (r : Rig) (k : String) : List Nat :=
  ((r.chain k).getD []).map RigItem.idx

/-- The target joint indices covered by any of the chains `update`
processes. -/
def coveredIdxs (r : Rig) : List Nat :=
  ("pelvis" :: "spine" :: tailRoles).bind (chainIdxs r)

/-- The index of the target pelvis chain's root joint (the only joint whose
local position `update` writes). -/
def pelvisRootIdx (r : Rig) : Option Nat :=
  (((r.chain "pelvis").getD []).head?).map RigItem.idx

theorem applyChain_rotFrame (st : RState) (k : String) (p2 : Pose)
    (h : applyChain st k = .ok p2) :
    RotFrame (chainIdxs st.tarRig k) st.pose p2 := by
  simp only [applyChain] at h
  split at h
  · cases h
  · exact applyChainGo_rotFrame st _ _ _ _ h

theorem applyEndInterp_rotFrame (vnorm : Vec3 → Vec3) (st : RState)
    (k : String) (p2 : Pose) (h : applyEndInterp vnorm st k = .ok p2) :
    RotFrame (chainIdxs st.tarRig k) st.pose p2 := by
  simp only [applyEndInterp] at h
  cases hs : st.srcRig.chain k with
  | none => simp only [hs] at h; cases h
  | some src =>
    simp only [hs] at h
    cases ht : st.tarRig.chain k with
    | none => simp only [ht] at h; cases h
    | some tar =>
      simp only [ht] at h
      cases h0 : src.head? with
      | none =>
        cases hN : src.getLast? with
        | none => simp only [h0, hN] at h; cases h
        | some sN => simp only [h0, hN] at h; cases h
      | some s0 =>
        cases hN : src.getLast? with
        | none => simp only [h0, hN] at h; cases h
        | some sN =>
          simp only [h0, hN, Except.ok.injEq] at h
          subst h
          have hf := foldl_endInterp_rotFrame vnorm st.tarRig.tpose
            (qrot (srcWorld st s0.idx).rot s0.swing)
            (qrot (srcWorld st s0.idx).rot s0.twist)
            (qrot (srcWorld st sN.idx).rot sN.swing)
            (qrot (srcWorld st sN.idx).rot sN.twist)
            ((tar.length : ℚ) - 1) tar.enum st.pose
          refine RotFrame.mono _ _ _ _ ?_ hf
          intro j hj
          simp only [List.mem_map] at hj
          obtain ⟨it, hit, rfl⟩ := hj
          have hmem : it.2 ∈ tar := by
            have h2 : it.2 ∈ tar.enum.map Prod.snd := List.mem_map_of_mem _ hit
            rwa [List.enum_map_snd] at h2
          simp only [chainIdxs, ht, Option.getD_some]
          exact List.mem_map_of_mem _ hmem


theorem applyScaledTranslation_ok_shape (st : RState) (k : String) (p2 : Pose)
    (h : applyScaledTranslation st k = .ok p2) :
    ∃ srcCh tarCh src tar,
      st.srcRig.chain k = some srcCh ∧ st.tarRig.chain k = some tarCh ∧
      srcCh.head? = some src ∧ tarCh.head? = some tar ∧
      p2 = applyScaledTranslationCore st src tar := by
  simp only [applyScaledTranslation] at h
  cases hs : st.srcRig.chain k with
  | none => simp only [hs] at h; cases h
  | some srcCh =>
    simp only [hs] at h
    cases ht : st.tarRig.chain k with
    | none => simp only [ht] at h; cases h
    | some tarCh =>
      simp only [ht] at h
      cases h0 : srcCh.head? with
      | none =>
        cases hN : tarCh.head? with
        | none => simp only [h0, hN] at h; cases h
        | some tar => simp only [h0, hN] at h; cases h
      | some src =>
        cases hN : tarCh.head? with
        | none => simp only [h0, hN] at h; cases h
        | some tar =>
          simp only [h0, hN, Except.ok.injEq] at h
          exact ⟨srcCh, tarCh, src, tar, rfl, rfl, h0, hN, h.symm⟩

theorem applyChainList_ok (roles : List String) :
    ∀ (st st2 : RState), applyChainList st roles = .ok st2 →
      st2.srcRig = st.srcRig ∧ st2.tarRig = st.tarRig ∧
      st2.duration = st.duration ∧ st2.srcWorldAt = st.srcWorldAt ∧
      st2.time = st.time ∧
      RotFrame (roles.bind (chainIdxs st.tarRig)) st.pose st2.pose := by
  induction roles with
  | nil =>
    intro st st2 h
    cases h
    exact ⟨rfl, rfl, rfl, rfl, rfl, RotFrame.rfl _ _⟩
  | cons k ks ih =>
    intro st st2 h
    simp only [applyChainList, bind, Except.bind] at h
    cases hc : applyChain st k with
    | error e => simp only [hc] at h; cases h
    | ok p =>
      simp only [hc] at h
      obtain ⟨e1, e2, e3, e4, e5, hf⟩ := ih (setPose st p) st2 h
      have hf1 : RotFrame (chainIdxs st.tarRig k) st.pose p :=
        applyChain_rotFrame st k p hc
      exact ⟨e1, e2, e3, e4, e5, RotFrame.trans _ _ _ _ _ hf1 hf⟩

/-- `update` leaves the rigs, clip and sampling function untouched; it
changes only the playback time and the working pose. -/
theorem update_preserves (vnorm : Vec3 → Vec3) (st : RState) (dt : ℚ)
    (st2 : RState) (hok : update vnorm st dt = .ok st2) :
    st2.srcRig = st.srcRig ∧ st2.tarRig = st.tarRig ∧
    st2.duration = st.duration ∧ st2.srcWorldAt = st.srcWorldAt ∧
    st2.time = st.time + dt := by
  simp only [update, bind, Except.bind] at hok
  cases h1 : applyScaledTranslation { st with time := st.time + dt } "pelvis" with
  | error e => simp only [h1] at hok; cases hok
  | ok p1 =>
    simp only [h1] at hok
    cases h2 : applyChain (setPose { st with time := st.time + dt } p1) "pelvis" with
    | error e => simp only [h2] at hok; cases hok
    | ok p2 =>
      simp only [h2] at hok
      cases h3 : applyEndInterp vnorm
          (setPose (setPose { st with time := st.time + dt } p1) p2) "spine" with
      | error e => simp only [h3] at hok; cases hok
      | ok p3 =>
        simp only [h3] at hok
        obtain ⟨e1, e2, e3, e4, e5, -⟩ := applyChainList_ok tailRoles _ st2 hok
        exact ⟨e1, e2, e3, e4, e5⟩

/-- Core frame facts for a single successful `update` tick. -/
theorem update_frame_core (vnorm : Vec3 → Vec3) (st : RState) (dt : ℚ)
    (st2 : RState) (hok : update vnorm st dt = .ok st2) :
    (∀ j, j ∉ coveredIdxs st.tarRig →
      (st2.pose.jointAt j).loc.rot = (st.pose.jointAt j).loc.rot) ∧
    (∀ j, pelvisRootIdx st.tarRig ≠ some j →
      (st2.pose.jointAt j).loc.pos = (st.pose.jointAt j).loc.pos) ∧
    (∀ j, j ∉ coveredIdxs st.tarRig → pelvisRootIdx st.tarRig ≠ some j →
      st2.pose.jointAt j = st.pose.jointAt j) := by
  simp only [update, bind, Except.bind] at hok
  cases h1 : applyScaledTranslation { st with time := st.time + dt } "pelvis" with
  | error e => simp only [h1] at hok; cases hok
  | ok p1 =>
    simp only [h1] at hok
    cases h2 : applyChain (setPose { st with time := st.time + dt } p1) "pelvis" with
    | error e => simp only [h2] at hok; cases hok
    | ok p2 =>
      simp only [h2] at hok
      cases h3 : applyEndInterp vnorm
          (setPose (setPose { st with time := st.time + dt } p1) p2) "spine" with
      | error e => simp only [h3] at hok; cases hok
      | ok p3 =>
        simp only [h3] at hok
        obtain ⟨-, -, -, -, -, hf4⟩ := applyChainList_ok tailRoles _ st2 hok
        have hf2 : RotFrame (chainIdxs st.tarRig "pelvis") p1 p2 :=
          applyChain_rotFrame (setPose { st with time := st.time + dt } p1)
            "pelvis" p2 h2
        have hf3 : RotFrame (chainIdxs st.tarRig "spine") p2 p3 :=
          applyEndInterp_rotFrame vnorm
            (setPose (setPose { st with time := st.time + dt } p1) p2)
            "spine" p3 h3
        have hf4a : RotFrame (tailRoles.bind (chainIdxs st.tarRig)) p3 st2.pose :=
          hf4
        have hfall : RotFrame (coveredIdxs st.tarRig) p1 st2.pose :=
          RotFrame.trans _ _ _ _ _ hf2 (RotFrame.trans _ _ _ _ _ hf3 hf4a)
        obtain ⟨srcCh, tarCh, src, tar, hcs, hct, hh0, hhN, hp1⟩ :=
          applyScaledTranslation_ok_shape _ _ _ h1
        have hroot : pelvisRootIdx st.tarRig = some tar.idx := by
          simp only [pelvisRootIdx, hct, Option.getD_some, hhN]
          rfl
        have hp1' : p1 = st.pose.setPos tar.idx
            (toLocalPos (st.pose.getWorld tar.pidx)
              (vadd (tmul (st.pose.getWorld tar.pidx)
                  (st.tarRig.tpose.jointAt tar.idx).loc).pos
                (scaledOffset { st with time := st.time + dt } src))) := hp1
        refine ⟨?_, ?_, ?_⟩
        · intro j hj
          rw [hfall.1 j hj, hp1', jointAt_setPos_rot]
        · intro j hj
          have hne : j ≠ tar.idx := by
            intro he
            exact hj (by rw [hroot, he])
          rw [hfall.2 j, hp1', jointAt_setPos_ne _ _ _ _ hne]
        · intro j hj hr
          have hne : j ≠ tar.idx := by
            intro he
            exact hr (by rw [hroot, he])
          rw [hfall.1 j hj, hp1', jointAt_setPos_ne _ _ _ _ hne]

/-- The `n`-fold iteration of `update` with a fixed `delta_time` (the shape
in which both repeated `update` ticks and the bake loop drive the
retargeter). -/
def updateIter (vnorm : Vec3 → Vec3) (dt : ℚ) :
    Nat → RState → Except String RState
  | 0, st => .ok st
  | n + 1, st =>
    match update vnorm st dt with
    | .error e => .error e
    | .ok st2 => updateIter vnorm dt n st2

/-- C10: a successful `update` tick writes only local rotations of joints
covered by some configured chain of the target rig, plus the single local
position of the target pelvis chain's root joint; every other joint's local
transform is untouched — and hence, across any number of `update` calls
(the form in which `bake` also drives the retargeter), joints outside all
chains keep their initial (bind-pose) local transforms. -/
theorem update_writes_only_chain_rotations (vnorm : Vec3 → Vec3)
    (st : RState) (dt : ℚ) :
    (∀ st2, update vnorm st dt = .ok st2 →
      (∀ j, j ∉ coveredIdxs st.tarRig →
        (st2.pose.jointAt j).loc.rot = (st.pose.jointAt j).loc.rot) ∧
      (∀ j, pelvisRootIdx st.tarRig ≠ some j →
        (st2.pose.jointAt j).loc.pos = (st.pose.jointAt j).loc.pos) ∧
      (∀ j, j ∉ coveredIdxs st.tarRig → pelvisRootIdx st.tarRig ≠ some j →
        st2.pose.jointAt j = st.pose.jointAt j)) ∧
    (∀ n st2, updateIter vnorm dt n st = .ok st2 →
      ∀ j, j ∉ coveredIdxs st.tarRig → pelvisRootIdx st.tarRig ≠ some j →
        st2.pose.jointAt j = st.pose.jointAt j) := by
  refine ⟨fun st2 hok => update_frame_core vnorm st dt st2 hok, ?_⟩
  have key : ∀ n st st2, updateIter vnorm dt n st = .ok st2 →
      ∀ j, j ∉ coveredIdxs st.tarRig → pelvisRootIdx st.tarRig ≠ some j →
        st2.pose.jointAt j = st.pose.jointAt j := by
    intro n
    induction n with
    | zero =>
      intro st st2 h j _ _
      cases h
      rfl
    | succ m ih =>
      intro st st2 h j hj hr
      simp only [updateIter] at h
      cases hu : update vnorm st dt with
      | error e => simp only [hu] at h; cases h
      | ok st1 =>
        simp only [hu] at h
        obtain ⟨-, htar, -, -, -⟩ := update_preserves vnorm st dt st1 hu
        have hstep := (update_frame_core vnorm st dt st1 hu).2.2 j hj hr
        have hrest := ih st1 st2 h j (by rw [htar]; exact hj)
          (by rw [htar]; exact hr)
        rw [hrest, hstep]
  exact fun n st2 h => key n st st2 h

/-- The result of a concrete `update` tick on the witness state. -/
def stC10 : RState := ((update vnormId stTest (1/1000)).toOption).getD stTest

theorem update_writes_only_chain_rotations_witness :
    (1 : Nat) ∉ coveredIdxs stTest.tarRig ∧
    pelvisRootIdx stTest.tarRig ≠ some 1 ∧
    stC10.pose.jointAt 1 = stTest.pose.jointAt 1 := by
  have hok : update vnormId stTest (1/1000) = .ok stC10 := by
    with_unfolding_all rfl
  have h1 : (1 : Nat) ∉ coveredIdxs stTest.tarRig := by
    with_unfolding_all decide
  have h2 : pelvisRootIdx stTest.tarRig ≠ some 1 := by
    with_unfolding_all decide
  exact ⟨h1, h2,
    ((update_writes_only_chain_rotations vnormId stTest (1/1000)).1 stC10
      hok).2.2 1 h1 h2⟩


/-- An animation clip as consumed/produced by the retargeting service. -/
structure AnimationClip where
  name : String
  duration : ℚ
  tracks : List Track
deriving DecidableEq, Repr

/-- The clip construction at the tail of
`AnimationRetargetService.apply_swing_twist_retargeting` (src/unnamed/
part_004 lines 234-239): the new clip carries the baked tracks and the
source clip's duration. -/
def retargetedClip (src_name : String) (src_duration : ℚ)
    (tracks : List Track) : AnimationClip :=
  ⟨src_name ++ "_retargeted", src_duration, tracks⟩

/-! ## C3: baked track coverage -/

/-- `jointAt` agrees with positional indexing in range. -/
theorem jointAt_eq_getElem (p : Pose) (i : Nat) (h : i < p.joints.length) :
    p.jointAt i = p.joints[i] := by
  simp [Pose.jointAt, List.getD_eq_getElem?_getD, List.getElem?_eq_getElem h]

theorem bind_const_of_eq {α β : Type} (l : List α) (f : α → List β)
    (c : List β) (h : ∀ x ∈ l, f x = c) :
    l.bind f = (List.replicate l.length c).join := by
  induction l with
  | nil => rfl
  | cons x xs ih =>
    show f x ++ xs.bind f = (List.replicate (xs.length + 1) c).join
    rw [h x (List.mem_cons_self _ _),
      ih (fun y hy => h y (List.mem_cons_of_mem _ hy))]
    rfl

/-- Across a successful bake sampling run, joints outside every chain (and
different from the pelvis root) keep their initial local transform in every
sampled pose. -/
theorem bakeGo_uncovered (vnorm : Vec3 → Vec3) (ft dur : ℚ) :
    ∀ (fuel frame : Nat) (st : RState) (samples : List (ℚ × Pose)),
      bakeGo vnorm ft dur fuel frame st = .ok samples →
      ∀ j, j ∉ coveredIdxs st.tarRig → pelvisRootIdx st.tarRig ≠ some j →
        ∀ sm ∈ samples, sm.2.jointAt j = st.pose.jointAt j := by
  intro fuel
  induction fuel with
  | zero =>
    intro frame st samples h j _ _ sm hsm
    simp only [bakeGo, Except.ok.injEq] at h
    subst h
    cases hsm
  | succ n ih =>
    intro frame st samples h j hj hr sm hsm
    simp only [bakeGo] at h
    cases hu : update vnorm st ft with
    | error e => simp only [hu] at h; cases h
    | ok st1 =>
      simp only [hu] at h
      cases hg : bakeGo vnorm ft dur n (frame + 1) st1 with
      | error e => simp only [hg] at h; cases h
      | ok rest =>
        simp only [hg, Except.ok.injEq] at h
        subst h
        obtain ⟨-, htar, -, -, -⟩ := update_preserves vnorm st ft st1 hu
        have hstep : st1.pose.jointAt j = st.pose.jointAt j :=
          (update_frame_core vnorm st ft st1 hu).2.2 j hj hr
        rcases List.mem_cons.mp hsm with rfl | htail
        · exact hstep
        · have := ih (frame + 1) st1 rest hg j (by rw [htar]; exact hj)
            (by rw [htar]; exact hr) sm htail
          rw [this, hstep]

theorem applyChain_ok_src (st : RState) (k : String) (p2 : Pose)
    (h : applyChain st k = .ok p2) : st.srcRig.chain k ≠ none := by
  simp only [applyChain] at h
  cases hs : st.srcRig.chain k with
  | none => simp only [hs] at h; cases h
  | some src => simp [hs]

theorem applyEndInterp_ok_src (vnorm : Vec3 → Vec3) (st : RState)
    (k : String) (p2 : Pose) (h : applyEndInterp vnorm st k = .ok p2) :
    st.srcRig.chain k ≠ none ∧ st.tarRig.chain k ≠ none := by
  simp only [applyEndInterp] at h
  cases hs : st.srcRig.chain k with
  | none => simp only [hs] at h; cases h
  | some src =>
    simp only [hs] at h
    cases ht : st.tarRig.chain k with
    | none => simp only [ht] at h; cases h
    | some tar => simp

theorem applyChainList_ok_src (roles : List String) :
    ∀ (st st2 : RState), applyChainList st roles = .ok st2 →
      ∀ k ∈ roles, st.srcRig.chain k ≠ none := by
  induction roles with
  | nil => intro st st2 _ k hk; cases hk
  | cons r rs ih =>
    intro st st2 h k hk
    simp only [applyChainList, bind, Except.bind] at h
    cases hc : applyChain st r with
    | error e => simp only [hc] at h; cases h
    | ok p =>
      simp only [hc] at h
      rcases List.mem_cons.mp hk with rfl | htail
      · exact applyChain_ok_src st k p hc
      · exact ih (setPose st p) st2 h k htail

/-- A successful `update` requires every processed role to be configured in
the source rig, and pelvis and spine to be configured in the target rig. -/
theorem update_ok_roles (vnorm : Vec3 → Vec3) (st : RState) (dt : ℚ)
    (st2 : RState) (hok : update vnorm st dt = .ok st2) :
    (∀ k ∈ ("pelvis" :: "spine" :: tailRoles), st.srcRig.chain k ≠ none) ∧
    st.tarRig.chain "pelvis" ≠ none ∧ st.tarRig.chain "spine" ≠ none := by
  simp only [update, bind, Except.bind] at hok
  cases h1 : applyScaledTranslation { st with time := st.time + dt } "pelvis" with
  | error e => simp only [h1] at hok; cases hok
  | ok p1 =>
    simp only [h1] at hok
    cases h2 : applyChain (setPose { st with time := st.time + dt } p1) "pelvis" with
    | error e => simp only [h2] at hok; cases hok
    | ok p2 =>
      simp only [h2] at hok
      cases h3 : applyEndInterp vnorm
          (setPose (setPose { st with time := st.time + dt } p1) p2) "spine" with
      | error e => simp only [h3] at hok; cases hok
      | ok p3 =>
        simp only [h3] at hok
        obtain ⟨srcCh, tarCh, -, -, hcs, hct, -, -, -⟩ :=
          applyScaledTranslation_ok_shape _ _ _ h1
        have htails := applyChainList_ok_src tailRoles _ st2 hok
        have hspine := applyEndInterp_ok_src vnorm _ "spine" p3 h3
        simp only [setPose] at hspine
        refine ⟨?_, by simp [hct], hspine.2⟩
        intro k hk
        rcases List.mem_cons.mp hk with rfl | hk2
        · simp [hcs]
        · rcases List.mem_cons.mp hk2 with rfl | hk3
          · exact hspine.1
          · exact htails k hk3

/-- A successful bake with a positive frame count performs at least one
`update`. -/
theorem bakeGo_first_update (vnorm : Vec3 → Vec3) (ft dur : ℚ)
    (n frame : Nat) (st : RState) (samples : List (ℚ × Pose))
    (h : bakeGo vnorm ft dur (n + 1) frame st = .ok samples) :
    ∃ st1, update vnorm st ft = .ok st1 := by
  simp only [bakeGo] at h
  cases hu : update vnorm st ft with
  | error e => simp only [hu] at h; cases h
  | ok st1 => exact ⟨st1, rfl⟩

/-- C3 (amended): every target skeleton joint gets a rotation track
(chain-covered or not); joints covered by no chain (other than the pelvis
root) have rotation tracks that repeat their initial bind-pose local
rotation at every sampled frame; the emitted retargeted clip carries the
source clip's duration; and a bake can only succeed when every role
`update` processes has a source chain and pelvis and spine have target
chains — so a correspondence covering only 2 of 10 roles makes `bake`
throw (see C2) rather than complete. -/
theorem bake_track_coverage (vnorm : Vec3 → Vec3) (st : RState) (fps : ℚ)
    (tracks : List Track)
    (hok : bake_animation_to_tracks vnorm st fps = .ok tracks) :
    (∀ j ∈ st.tarRig.tpose.joints,
      ∃ tr ∈ tracks, tr.bone = j.name ∧ tr.prop = TrackProp.rotation) ∧
    (∀ i : Nat, i < st.tarRig.tpose.joints.length →
      i ∉ coveredIdxs st.tarRig → pelvisRootIdx st.tarRig ≠ some i →
      ∃ tr ∈ tracks,
        tr.bone = (st.tarRig.tpose.jointAt i).name ∧
        tr.prop = TrackProp.rotation ∧
        tr.values = (List.replicate tr.times.length
          (quatComps ((st.pose.jointAt i).loc.rot))).join) ∧
    (∀ nm dur, (retargetedClip nm dur tracks).duration = dur) ∧
    (0 < fps → 0 ≤ st.duration →
      (∀ k ∈ ("pelvis" :: "spine" :: tailRoles), st.srcRig.chain k ≠ none) ∧
      st.tarRig.chain "pelvis" ≠ none ∧ st.tarRig.chain "spine" ≠ none) := by
  obtain ⟨samples, hgo, hemit⟩ := bake_ok_shape vnorm st fps tracks hok
  subst hemit
  refine ⟨fun j hj => bakeTracksOf_rot_exists _ _ j hj, ?_, fun nm dur => rfl, ?_⟩
  · intro i hi hcov hroot
    have hen : (i, st.tarRig.tpose.joints[i]) ∈ st.tarRig.tpose.joints.enum := by
      rw [List.mk_mem_enum_iff_get?]
      exact (List.get?_eq_getElem? _ _).trans (List.getElem?_eq_getElem hi)
    refine ⟨⟨(st.tarRig.tpose.joints[i]).name, TrackProp.rotation,
      samples.map Prod.fst,
      samples.bind (fun sm => quatComps ((sm.2.jointAt i).loc.rot))⟩,
      ?_, ?_, rfl, ?_⟩
    · simp only [bakeTracksOf, List.mem_bind]
      exact ⟨(i, st.tarRig.tpose.joints[i]), hen, List.mem_cons_self _ _⟩
    · rw [jointAt_eq_getElem _ _ hi]
    · have hsm := bakeGo_uncovered vnorm (1 / fps) st.duration _ 0 st samples
        hgo i hcov hroot
      have hconst : ∀ sm ∈ samples,
          quatComps ((sm.2.jointAt i).loc.rot)
            = quatComps ((st.pose.jointAt i).loc.rot) := by
        intro sm hm
        rw [hsm sm hm]
      have hb := bind_const_of_eq samples _ _ hconst
      simp only [hb, List.length_map]
  · intro hfps hdur
    have hfc : ∃ n, (⌈st.duration * fps⌉ + 1).toNat = n + 1 := by
      have hge : (0 : ℤ) ≤ ⌈st.duration * fps⌉ :=
        Int.ceil_nonneg (mul_nonneg hdur (le_of_lt hfps))
      refine ⟨(⌈st.duration * fps⌉).toNat, ?_⟩
      omega
    obtain ⟨n, hn⟩ := hfc
    rw [hn] at hgo
    obtain ⟨st1, hu⟩ := bakeGo_first_update vnorm (1 / fps) st.duration n 0
      st samples hgo
    exact update_ok_roles vnorm st (1 / fps) st1 hu

/-- C3 counterexample: on a concrete bake, the target joint "Spine" (index
1) is covered by no chain, yet the baked output contains a rotation track
for it — refuting "no rotation track for uncovered joints". -/
theorem bake_rotation_track_for_uncovered_joint :
    (1 : Nat) ∉ coveredIdxs stTest.tarRig ∧
    (stTest.tarRig.tpose.jointAt 1).name = "Spine" ∧
    (∃ tr ∈ bakeC5, tr.bone = "Spine" ∧ tr.prop = TrackProp.rotation) := by
  refine ⟨by with_unfolding_all decide, by with_unfolding_all rfl, ?_⟩
  with_unfolding_all decide

theorem bake_track_coverage_witness :
    (1 : Nat) < stTest.tarRig.tpose.joints.length ∧
    (∃ tr ∈ bakeC5,
      tr.bone = (stTest.tarRig.tpose.jointAt 1).name ∧
      tr.prop = TrackProp.rotation ∧
      tr.values = (List.replicate tr.times.length
        (quatComps ((stTest.pose.jointAt 1).loc.rot))).join) := by
  have hok : bake_animation_to_tracks vnormId stTest 1 = .ok bakeC5 := by
    with_unfolding_all rfl
  refine ⟨by with_unfolding_all decide, ?_⟩
  exact (bake_track_coverage vnormId stTest 1 bakeC5 hok).2.1 1
    (by with_unfolding_all decide) (by with_unfolding_all decide)
    (by with_unfolding_all decide)


end Mesh2Motion
